import Mathlib

/-!
Verification of the CodeSight indexing-and-retrieval engine.

Each definition below is a shallow embedding of a function of the Python
source (`src/codesight/...`); doc comments name the embedded function.
Machine integers are modelled as `Nat`/`Int` (Python integers are unbounded;
the 32-bit arithmetic inside SHA-256 is taken modulo 2^32 explicitly).
Scores are modelled as `ℚ` (exact arithmetic standing in for Python floats).
-/

set_option maxRecDepth 10000
set_option maxHeartbeats 1000000

namespace CodeSight

/-! ## Small string utilities -/

/-- Lexicographic comparison of character lists by code point, the order
Python uses for `str` comparison. -/
def charsLe : List Char → List Char → Bool
  | [], _ => true
  | _ :: _, [] => false
  | a :: as, b :: bs =>
    if a.toNat < b.toNat then true
    else if b.toNat < a.toNat then false
    else charsLe as bs

/-- Lexicographic string order (Python `<=` on `str`). -/
def strLe (a b : String) : Bool := charsLe a.toList b.toList

/-- Python `str.strip()`: drop leading and trailing whitespace. -/
def pyStrip (s : String) : String :=
  String.mk (((s.toList.dropWhile Char.isWhitespace).reverse.dropWhile
    Char.isWhitespace).reverse)

/-- Python `s[-n:]` for `n ≥ 1` (and the last-`n`-characters reading for
`n = 0`): the last `min n (len s)` characters. -/
def pyTakeRight (s : String) (n : Nat) : String :=
  String.mk (s.toList.drop (s.toList.length - n))

/-- Python `str.lower()` on ASCII, applied character by character. -/
def strToLower (s : String) : String := String.mk (s.toList.map Char.toLower)

/-- Python `s.startswith(".")`. -/
def startsWithDot (s : String) : Bool :=
  match s.toList with
  | c :: _ => c == '.'
  | [] => false

/-! ## SHA-256 (`hashlib.sha256(...).hexdigest()`)

A byte-level embedding of SHA-256 over `List Nat` (each element a byte),
with all 32-bit arithmetic reduced modulo 2^32. -/

/-- Truncate to a 32-bit word. -/
def w32 (n : Nat) : Nat := n % 4294967296

/-- Rotate a 32-bit word right by `n` bits. -/
def rotr (n x : Nat) : Nat := w32 ((x >>> n) ||| (x <<< (32 - n)))

/-- SHA-256 Σ₀. -/
def bigSigma0 (x : Nat) : Nat := rotr 2 x ^^^ rotr 13 x ^^^ rotr 22 x

/-- SHA-256 Σ₁. -/
def bigSigma1 (x : Nat) : Nat := rotr 6 x ^^^ rotr 11 x ^^^ rotr 25 x

/-- SHA-256 σ₀. -/
def smallSigma0 (x : Nat) : Nat := rotr 7 x ^^^ rotr 18 x ^^^ (x >>> 3)

/-- SHA-256 σ₁. -/
def smallSigma1 (x : Nat) : Nat := rotr 17 x ^^^ rotr 19 x ^^^ (x >>> 10)

/-- SHA-256 Ch function; complement is xor against the 32-bit mask. -/
def chF (x y z : Nat) : Nat := (x &&& y) ^^^ ((x ^^^ 4294967295) &&& z)

/-- SHA-256 Maj function. -/
def majF (x y z : Nat) : Nat := (x &&& y) ^^^ (x &&& z) ^^^ (y &&& z)

/-- The 64 SHA-256 round constants (decimal values of the FIPS 180-4
table). -/
def K256 : List Nat :=
  [1116352408, 1899447441, 3049323471, 3921009573, 961987163,
   1508970993, 2453635748, 2870763221, 3624381080, 310598401,
   607225278, 1426881987, 1925078388, 2162078206, 2614888103,
   3248222580, 3835390401, 4022224774, 264347078, 604807628,
   770255983, 1249150122, 1555081692, 1996064986, 2554220882,
   2821834349, 2952996808, 3210313671, 3336571891, 3584528711,
   113926993, 338241895, 666307205, 773529912, 1294757372,
   1396182291, 1695183700, 1986661051, 2177026350, 2456956037,
   2730485921, 2820302411, 3259730800, 3345764771, 3516065817,
   3600352804, 4094571909, 275423344, 430227734, 506948616,
   659060556, 883997877, 958139571, 1322822218, 1537002063,
   1747873779, 1955562222, 2024104815, 2227730452, 2361852424,
   2428436474, 2756734187, 3204031479, 3329325298]

/-- The SHA-256 initial hash state (decimal values). -/
def H256init : List Nat :=
  [1779033703, 3144134277, 1013904242, 2773480762,
   1359893119, 2600822924, 528734635, 1541459225]

/-- Big-endian 8-byte encoding of a natural number. -/
def be64 (n : Nat) : List Nat :=
  [(n >>> 56) &&& 255, (n >>> 48) &&& 255, (n >>> 40) &&& 255, (n >>> 32) &&& 255,
   (n >>> 24) &&& 255, (n >>> 16) &&& 255, (n >>> 8) &&& 255, n &&& 255]

/-- Big-endian 4-byte encoding of a 32-bit word. -/
def be32 (n : Nat) : List Nat :=
  [(n >>> 24) &&& 255, (n >>> 16) &&& 255, (n >>> 8) &&& 255, n &&& 255]

/-- SHA-256 padding: append 0x80, zeros to 56 mod 64, then the bit length. -/
def padMessage (msg : List Nat) : List Nat :=
  let len := msg.length
  let padZeros := (55 + 64 - (len % 64)) % 64
  msg ++ [0x80] ++ List.replicate padZeros 0 ++ be64 (len * 8)

/-- Group bytes into big-endian 32-bit words. -/
def bytesToWords : List Nat → List Nat
  | a :: b :: c :: d :: rest =>
    ((a <<< 24) ||| (b <<< 16) ||| (c <<< 8) ||| d) :: bytesToWords rest
  | _ => []

/-- Extend the 16-word message schedule by `count` further words. -/
def schedule (ws : List Nat) : Nat → List Nat
  | 0 => ws
  | c + 1 =>
    let n := ws.length
    let nw := w32 (smallSigma1 (ws.getD (n - 2) 0) + ws.getD (n - 7) 0 +
      smallSigma0 (ws.getD (n - 15) 0) + ws.getD (n - 16) 0)
    schedule (ws ++ [nw]) c

/-- One SHA-256 round: update the 8-word working state with `(k, w)`. -/
def compressStep (state : List Nat) (kw : Nat × Nat) : List Nat :=
  match state with
  | [a, b, c, d, e, f, g, h] =>
    let t1 := w32 (h + bigSigma1 e + chF e f g + kw.1 + kw.2)
    let t2 := w32 (bigSigma0 a + majF a b c)
    [w32 (t1 + t2), a, b, c, w32 (d + t1), e, f, g]
  | s => s

/-- Compress one 64-byte block into the hash state. -/
def compressBlock (h : List Nat) (block : List Nat) : List Nat :=
  let ws := schedule (bytesToWords block) 48
  let working := (K256.zip ws).foldl compressStep h
  (h.zip working).map (fun p => w32 (p.1 + p.2))

/-- Split a byte list into 64-byte blocks (fuel-based structural recursion;
the fuel is a bound on the number of blocks, so `l.length` always suffices). -/
def splitBlocksGo : Nat → List Nat → List (List Nat)
  | 0, _ => []
  | _, [] => []
  | fuel + 1, a :: as => (a :: as).take 64 :: splitBlocksGo fuel ((a :: as).drop 64)

/-- Split a byte list into 64-byte blocks. -/
def splitBlocks (l : List Nat) : List (List Nat) := splitBlocksGo l.length l

/-- Full SHA-256 over a byte list, returning the 32 digest bytes. -/
def sha256Bytes (msg : List Nat) : List Nat :=
  let final := (splitBlocks (padMessage msg)).foldl compressBlock H256init
  (final.map be32).flatten

/-- Lowercase hexadecimal digit for a value below 16. -/
def hexDigit (n : Nat) : Char :=
  "0123456789abcdef".toList.getD n '0'

/-- Render bytes as a lowercase hex string (Python `hexdigest()`). -/
def bytesToHexStr (bs : List Nat) : String :=
  String.mk (bs.flatMap (fun b => [hexDigit (b / 16), hexDigit (b % 16)]))

/-- UTF-8 encoding of one character (Python `str.encode()`). -/
def encodeCharUtf8 (c : Char) : List Nat :=
  let n := c.toNat
  if n < 128 then [n]
  else if n < 2048 then [192 ||| (n >>> 6), 128 ||| (n &&& 63)]
  else if n < 65536 then
    [224 ||| (n >>> 12), 128 ||| ((n >>> 6) &&& 63), 128 ||| (n &&& 63)]
  else
    [240 ||| (n >>> 18), 128 ||| ((n >>> 12) &&& 63),
     128 ||| ((n >>> 6) &&& 63), 128 ||| (n &&& 63)]

/-- UTF-8 encoding of a string. -/
def utf8Encode (s : String) : List Nat := s.toList.flatMap encodeCharUtf8

/-- SHA-256 hex digest of a string: `hashlib.sha256(s.encode()).hexdigest()`. -/
def sha256HexString (s : String) : String := bytesToHexStr (sha256Bytes (utf8Encode s))

/-! ## Data model: `chunker.Chunk` -/

/-- Chunk.__post_init__ hash: `hashlib.sha256(content.encode()).hexdigest()[:16]`. -/
def contentHash (content : String) : String := (sha256HexString content).take 16

/-- A chunk of indexable content (`chunker.Chunk`).  Line fields are `Int`
(Python unbounded ints; the windows splitter manipulates signed indices). -/
structure Chunk where
  file_path : String
  start_line : Int
  end_line : Int
  content : String
  scope : String
  language : String
  context_header : String
  content_hash : String
deriving DecidableEq, Repr

/-- Build a `Chunk` the way the dataclass constructor plus `__post_init__`
does: every field is caller-supplied except `content_hash`, which is always
computed from `content`. -/
def mkChunk (file_path : String) (start_line end_line : Int) (content scope language context_header : String) : Chunk :=
  { file_path := file_path, start_line := start_line, end_line := end_line,
    content := content, scope := scope, language := language,
    context_header := context_header, content_hash := contentHash content }

/-- Chunk.chunk_id property: `f"{file_path}:{start_line}-{end_line}:{content_hash}"`. -/
def Chunk.chunkId (c : Chunk) : String :=
  c.file_path ++ ":" ++ toString c.start_line ++ "-" ++ toString c.end_line ++ ":" ++ c.content_hash

/-- chunker._make_context_header. -/
def makeContextHeader (file_path scope : String) (start_line end_line : Int) : String :=
  "# File: " ++ file_path ++ "\n# Scope: " ++ scope ++ "\n# Lines: " ++
    toString start_line ++ "-" ++ toString end_line

/-! ## chunker._split_text_by_paragraphs (document chunker)

The regex split on blank lines yields the list of raw pieces; the model takes
that list as input and performs the strip/filter comprehension and the
accumulate/flush/overlap loop exactly as the source does.  Python `str.strip`
is modelled by `pyStrip`, `s[-k:]` by `pyTakeRight`. -/

/-- The accumulation loop of `_split_text_by_paragraphs` (lines 344–384):
flush when the buffer is nonempty and adding the paragraph plus its
two-character separator would exceed `max_chars`; reseed the buffer with the
last `overlap_chars` characters only when `overlap_chars > 0` and the flushed
text is strictly longer than `overlap_chars`. -/
def paraChunks (fp : String) (page : Int) (scope lang : String) (maxC ovC : Nat) : List String → String → List Chunk
  | [], current =>
    if pyStrip current ≠ "" then
      [mkChunk fp page page current scope lang (makeContextHeader fp scope page page)]
    else []
  | para :: rest, current =>
    if current ≠ "" ∧ maxC < current.length + para.length + 2 then
      mkChunk fp page page current scope lang (makeContextHeader fp scope page page) ::
        paraChunks fp page scope lang maxC ovC rest
          (if (if 0 < ovC ∧ ovC < current.length then pyTakeRight current ovC else "") ≠ "" then
            (if 0 < ovC ∧ ovC < current.length then pyTakeRight current ovC else "") ++ "\n\n" ++ para
          else para)
    else
      paraChunks fp page scope lang maxC ovC rest
        (if current ≠ "" then current ++ "\n\n" ++ para else para)

/-- chunker._split_text_by_paragraphs: strip each regex piece, drop empties,
then run the accumulation loop starting from the empty buffer. -/
def split_text_by_paragraphs (pieces : List String) (fp : String) (page : Int) (scope lang : String) (maxC ovC : Nat) : List Chunk :=
  let paragraphs := (pieces.map pyStrip).filter (fun p => p != "")
  if paragraphs = [] then []
  else paraChunks fp page scope lang maxC ovC paragraphs ""

/-- Variant of `paraChunks` whose reseed rule follows the claim's words:
empty exactly when the flushed text is smaller than `overlap_chars`,
otherwise the last `overlap_chars` characters.  Used only to state the claim. -/
def paraChunksClaim (fp : String) (page : Int) (scope lang : String) (maxC ovC : Nat) : List String → String → List Chunk
  | [], current =>
    if pyStrip current ≠ "" then
      [mkChunk fp page page current scope lang (makeContextHeader fp scope page page)]
    else []
  | para :: rest, current =>
    if current ≠ "" ∧ maxC < current.length + para.length + 2 then
      mkChunk fp page page current scope lang (makeContextHeader fp scope page page) ::
        paraChunksClaim fp page scope lang maxC ovC rest
          (if (if current.length < ovC then "" else pyTakeRight current ovC) ≠ "" then
            (if current.length < ovC then "" else pyTakeRight current ovC) ++ "\n\n" ++ para
          else para)
    else
      paraChunksClaim fp page scope lang maxC ovC rest
        (if current ≠ "" then current ++ "\n\n" ++ para else para)

/-- Claim-side wrapper around `paraChunksClaim`. -/
def split_text_by_paragraphs_claim (pieces : List String) (fp : String) (page : Int) (scope lang : String) (maxC ovC : Nat) : List Chunk :=
  let paragraphs := (pieces.map pyStrip).filter (fun p => p != "")
  if paragraphs = [] then []
  else paraChunksClaim fp page scope lang maxC ovC paragraphs ""

/-- Variant of `paraChunks` whose reseed rule states the amended claim:
empty exactly when the flushed text is at most `overlap_chars` long (or the
overlap is zero). -/
def paraChunksAmended (fp : String) (page : Int) (scope lang : String) (maxC ovC : Nat) : List String → String → List Chunk
  | [], current =>
    if pyStrip current ≠ "" then
      [mkChunk fp page page current scope lang (makeContextHeader fp scope page page)]
    else []
  | para :: rest, current =>
    if current ≠ "" ∧ maxC < current.length + para.length + 2 then
      mkChunk fp page page current scope lang (makeContextHeader fp scope page page) ::
        paraChunksAmended fp page scope lang maxC ovC rest
          (if (if current.length ≤ ovC ∨ ovC = 0 then "" else pyTakeRight current ovC) ≠ "" then
            (if current.length ≤ ovC ∨ ovC = 0 then "" else pyTakeRight current ovC) ++ "\n\n" ++ para
          else para)
    else
      paraChunksAmended fp page scope lang maxC ovC rest
        (if current ≠ "" then current ++ "\n\n" ++ para else para)

/-- Amended-side wrapper around `paraChunksAmended`. -/
def split_text_by_paragraphs_amended (pieces : List String) (fp : String) (page : Int) (scope lang : String) (maxC ovC : Nat) : List Chunk :=
  let paragraphs := (pieces.map pyStrip).filter (fun p => p != "")
  if paragraphs = [] then []
  else paraChunksAmended fp page scope lang maxC ovC paragraphs ""

/-! ## chunker._split_by_windows (code chunker fallback)

The Python loop index is a signed integer (`i += max_lines - overlap_lines`
can decrease it); the model mirrors that with `Int` and Python slice
semantics.  The scope-detection regexes of `_detect_scope` are abstracted as
a parameter `scopeF` applied to the first line of the segment, exactly where
the source calls `_detect_scope(segment[0] if segment else "", language)`. -/

/-- Clamp a Python slice endpoint to `[0, n]`. -/
def pySliceIdx (n : Nat) (i : Int) : Nat :=
  if i < 0 then ((n : Int) + i).toNat else min i.toNat n

/-- Python list slicing `l[i:j]`. -/
def pySlice {α : Type} (l : List α) (i j : Int) : List α :=
  (l.take (pySliceIdx l.length j)).drop (pySliceIdx l.length i)

/-- The `while i < len(lines)` loop of `_split_by_windows`, with explicit
fuel: one unit per iteration, `none` when the fuel runs out before the loop
exits.  Faithful to the source: emit the window `lines[i:min(i+max_lines,
len)]`, then `i += max_lines - overlap_lines` and break once `i >= len`. -/
def windowsLoop (lines : List String) (fp lang : String) (scopeF : String → String) (maxL ovL : Nat) (off : Int) : Nat → Int → List Chunk → Option (List Chunk)
  | 0, _, _ => none
  | fuel + 1, i, acc =>
    if i < (lines.length : Int) then
      let e : Int := min (i + (maxL : Int)) (lines.length : Int)
      let segment := pySlice lines i e
      let scope := scopeF (segment.headD "")
      let startLine := off + i + 1
      let endLine := off + e
      let acc2 := acc ++ [mkChunk fp startLine endLine (String.intercalate "\n" segment)
        scope lang (makeContextHeader fp scope startLine endLine)]
      let i2 := i + ((maxL : Int) - (ovL : Int))
      if (lines.length : Int) ≤ i2 then some acc2
      else windowsLoop lines fp lang scopeF maxL ovL off fuel i2 acc2
    else some acc

/-- chunker._split_by_windows, run with enough fuel for the in-bounds case. -/
def split_by_windows (lines : List String) (fp lang : String) (scopeF : String → String) (maxL ovL : Nat) (off : Int) : Option (List Chunk) :=
  windowsLoop lines fp lang scopeF maxL ovL off (lines.length + 1) 0 []

/-! ## search.rrf_merge

Python dict semantics: `scores[doc_id] = scores.get(doc_id, 0.0) + v`
updates an existing key in place (keeping its insertion position) and
appends a new key.  `sorted(items, key=..., reverse=True)` is Python's
stable sort, i.e. the total order (score descending, insertion position
ascending); the model annotates each pair with its position before sorting. -/

/-- Exact rational addition computed on numerators and denominators
(provably the field addition of `ℚ`, see `ratAdd_eq`; stated this way so
that concrete runs reduce inside the kernel). -/
def ratAdd (a b : ℚ) : ℚ := mkRat (a.num * (b.den : Int) + b.num * (a.den : Int)) (a.den * b.den)

/-- Add `v` to `id`'s score in an insertion-ordered association list. -/
def updateScore : List (String × ℚ) → String → ℚ → List (String × ℚ)
  | [], id, v => [(id, v)]
  | (k, s) :: rest, id, v =>
    if k = id then (k, ratAdd s v) :: rest else (k, s) :: updateScore rest id v

/-- The inner loop of `rrf_merge`: `for rank, doc_id in enumerate(ranked)`;
`mkRat 1 (k + rank + 1)` is the exact value of Python's
`1.0 / (k + rank + 1)`. -/
def addRanked (k : Nat) (scores : List (String × ℚ)) (ranked : List String) : List (String × ℚ) :=
  ranked.enum.foldl (fun acc p => updateScore acc p.2 (mkRat 1 (k + p.1 + 1))) scores

/-- The score dictionary built by `rrf_merge` over all ranked lists. -/
def rrfScores (k : Nat) (lists : List (List String)) : List (String × ℚ) :=
  lists.foldl (addRanked k) []

/-- Stable-descending comparison on position-annotated entries:
higher score first; equal scores ordered by original position. -/
def entryLe (x y : Nat × String × ℚ) : Bool :=
  decide (y.2.2 < x.2.2) || (decide (x.2.2 = y.2.2) && decide (x.1 ≤ y.1))

/-- Ordered insertion for `entryLe`. -/
def insEntry (x : Nat × String × ℚ) : List (Nat × String × ℚ) → List (Nat × String × ℚ)
  | [] => [x]
  | y :: ys => if entryLe x y then x :: y :: ys else y :: insEntry x ys

/-- Insertion sort for `entryLe`. -/
def sortEntries : List (Nat × String × ℚ) → List (Nat × String × ℚ)
  | [] => []
  | x :: xs => insEntry x (sortEntries xs)

/-- Python `sorted(scores.items(), key=lambda x: x[1], reverse=True)`. -/
def pySortByScoreDesc (l : List (String × ℚ)) : List (String × ℚ) :=
  (sortEntries l.enum).map (·.2)

/-- search.rrf_merge (the source calls it with the default `k = 60`). -/
def rrf_merge (ranked_lists : List (List String)) (k : Nat) : List (String × ℚ) :=
  pySortByScoreDesc (rrfScores k ranked_lists)

/-- Rank (0-based index of first occurrence) of `id` in a ranked list. -/
def rankOf : List String → String → Option Nat
  | [], _ => none
  | x :: xs, id => if x = id then some 0 else (rankOf xs id).map (· + 1)

/-- Spec-side contribution of one ranked list to `id`'s RRF score:
`1 / (k + r + 1)` at 0-based rank `r`, zero when absent. -/
def specContribution (k : Nat) (id : String) (l : List String) : ℚ :=
  match rankOf l id with
  | some r => 1 / ((k : ℚ) + (r : ℚ) + 1)
  | none => 0

/-- Spec-side fused RRF score: sum of the contributions over all lists. -/
def specScore (k : Nat) (id : String) (lists : List (List String)) : ℚ :=
  (lists.map (specContribution k id)).sum

/-- First-match lookup in the score association list, defaulting to zero. -/
def lookupScore : List (String × ℚ) → String → ℚ
  | [], _ => 0
  | (k, s) :: rest, id => if k = id then s else lookupScore rest id

/-- Python `dict(pairs).get(id, d)`: later pairs override earlier ones. -/
def dictGetD (pairs : List (String × ℚ)) (id : String) (d : ℚ) : ℚ :=
  match pairs.reverse.find? (fun p => p.1 == id) with
  | some p => p.2
  | none => d

/-! ## search.hybrid_search (steps 4–5)

The store lookups (`vector_search`, `bm25_search`, `get_chunk_metadata`)
are the function's inputs: two candidate id lists and a metadata lookup. -/

/-- Metadata row returned by `FTSSidecar.get_chunks_by_ids`. -/
structure ChunkMeta where
  file_path : String
  start_line : Int
  end_line : Int
  scope : String
  language : String
  content_hash : String
  content : String
deriving DecidableEq, Repr

/-- types.SearchResult as built by `hybrid_search`. -/
structure SearchResult where
  file_path : String
  start_line : Int
  end_line : Int
  snippet : String
  score : ℚ
  scope : String
  chunk_id : String
deriving DecidableEq, Repr

/-- Python banker's rounding of a rational to the nearest integer, computed
on the numerator and denominator: with `f = ⌊x⌋` and remainder
`rem = num - f * den` (so `x - f = rem / den`), round down when
`rem / den < 1/2`, up when `> 1/2`, and to the even neighbour on a tie. -/
def pyRoundHalfEven (x : ℚ) : ℤ :=
  let f := x.floor
  let rem := x.num - f * (x.den : ℤ)
  if 2 * rem < (x.den : ℤ) then f
  else if (x.den : ℤ) < 2 * rem then f + 1
  else if f % 2 = 0 then f else f + 1

/-- Python `round(x, 6)` modelled over exact rationals:
`pyRoundHalfEven (x * 10^6) / 10^6`, with the scaling by `10^6` computed on
the numerator. -/
def round6 (x : ℚ) : ℚ := mkRat (pyRoundHalfEven (mkRat (x.num * 1000000) x.den)) 1000000

/-- Step 5 of `hybrid_search`: hydrate ids, skip ids without metadata,
truncate long content with the explicit marker, round the fused score. -/
def buildResults (top_chunk_ids : List String) (score_map : List (String × ℚ)) (meta : String → Option ChunkMeta) : List SearchResult :=
  top_chunk_ids.filterMap (fun cid =>
    match meta cid with
    | none => none
    | some m =>
      some { file_path := m.file_path, start_line := m.start_line, end_line := m.end_line,
             snippet := if 1500 < m.content.length then m.content.take 1500 ++ "\n... (truncated)"
               else m.content,
             score := round6 (dictGetD score_map cid 0),
             scope := m.scope, chunk_id := cid })

/-- search.hybrid_search after the two candidate lists are fetched:
early return on two empty lists, RRF merge with `k = 60`, keep the top
`top_k`, hydrate, and build results. -/
def hybrid_search (vec_ids bm25_ids : List String) (top_k : Nat) (meta : String → Option ChunkMeta) : List SearchResult :=
  if vec_ids = [] ∧ bm25_ids = [] then []
  else
    buildResults (((rrf_merge [vec_ids, bm25_ids] 60).take top_k).map (·.1))
      ((rrf_merge [vec_ids, bm25_ids] 60).take top_k) meta

/-! ## indexer.index_repo (per-file incremental logic and batching)

The dual store is modelled as the list of rows of the FTS `chunks` table
(the vector index holds the same `chunk_id`s, and every store operation used
here — `delete_file_chunks`, `upsert_chunks` — acts on both indexes with the
same keys).  Chunks are projected to the two fields `index_repo` reads:
`chunk_id` and `content_hash`. -/

/-- Projection of a chunk to the fields the incremental differ inspects. -/
structure IChunk where
  chunk_id : String
  content_hash : String
deriving DecidableEq, Repr

/-- A stored row, keyed by `chunk_id`. -/
structure Row where
  file_path : String
  chunk_id : String
  content_hash : String
deriving DecidableEq, Repr

/-- FTSSidecar.get_chunk_hashes: the `(chunk_id, content_hash)` pairs of a
file's rows, in row order. -/
def getChunkHashes (store : List Row) (rel : String) : List (String × String) :=
  (store.filter (fun r => r.file_path == rel)).map (fun r => (r.chunk_id, r.content_hash))

/-- ChunkStore.delete_file_chunks: drop every row of the file. -/
def deleteFileChunks (store : List Row) (rel : String) : List Row :=
  store.filter (fun r => !(r.file_path == rel))

/-- ChunkStore.upsert_chunks: per batch row, delete any row with the same
`chunk_id`, then append the new row. -/
def upsertRows (store : List Row) (batch : List Row) : List Row :=
  batch.foldl (fun s row => s.filter (fun r => !(r.chunk_id == row.chunk_id)) ++ [row]) store

/-- Python set equality of two id lists (`set(a) == set(b)`). -/
def setEqStr (a b : List String) : Bool :=
  a.all (fun x => b.contains x) && b.all (fun x => a.contains x)

/-- Accumulated state of an `index_repo` run. -/
structure RunState where
  store : List Row
  created : Nat
  skipped : Nat
  batch : List Row
deriving DecidableEq, Repr

/-- Row built from a chunk of file `rel`. -/
def rowOf (rel : String) (c : IChunk) : Row :=
  { file_path := rel, chunk_id := c.chunk_id, content_hash := c.content_hash }

/-- The per-chunk skip test of `index_repo`: skip when the content hash is
among the file's pre-existing hashes and this is not a force rebuild;
otherwise append to the embed batch. -/
def chunkStep (existingValues : List String) (force : Bool) (rel : String) (st : Nat × List Row) (c : IChunk) : Nat × List Row :=
  if existingValues.contains c.content_hash ∧ force = false then (st.1 + 1, st.2)
  else (st.1, st.2 ++ [rowOf rel c])

/-- One iteration of the file loop of `index_repo` (lines 144–179): skip
files with no chunks; fetch the existing hash map; delete all rows of the
file when the chunk-id sets differ; run the per-chunk skip test; flush the
batch through the store when it reaches 64. -/
def processFile (force : Bool) (st : RunState) (file : String × List IChunk) : RunState :=
  if file.2 = [] then st
  else
    let existing := getChunkHashes st.store file.1
    let store1 :=
      if setEqStr (file.2.map (·.chunk_id)) (existing.map (·.1)) then st.store
      else deleteFileChunks st.store file.1
    let p := file.2.foldl (chunkStep (existing.map (·.2)) force file.1) (st.skipped, st.batch)
    if 64 ≤ p.2.length then
      { store := upsertRows store1 p.2, created := st.created + p.2.length,
        skipped := p.1, batch := [] }
    else
      { store := store1, created := st.created, skipped := p.1, batch := p.2 }

/-- indexer.index_repo over an already-chunked file list: fold the file loop,
then flush the remaining batch.  Returns the final store with the
`chunks_created` and `chunks_skipped_unchanged` counters. -/
def index_repo (files : List (String × List IChunk)) (store : List Row) (force : Bool) : RunState :=
  let st := files.foldl (processFile force) { store := store, created := 0, skipped := 0, batch := [] }
  if st.batch = [] then st
  else { store := upsertRows st.store st.batch, created := st.created + st.batch.length,
         skipped := st.skipped, batch := [] }

/-! ## indexer.walk_repo_files

The filesystem is modelled as a finite tree carrying, per directory, the
enumeration order `os.scandir` would return (`os.walk` preserves it and the
source never sorts).  Trees contain no `.gitignore` (the `None` branch of
`_load_gitignore`).  Recursion is fuel-indexed; every theorem below is
proved for all fuels, and fuel at least the nesting depth reproduces the
full traversal. -/

/-- A directory entry: a file with its byte size, or a subdirectory. -/
inductive FsEntry where
  | file (name : String) (size : Nat)
  | dir (name : String) (entries : List FsEntry)

/-- config.ALWAYS_SKIP_DIRS. -/
def ALWAYS_SKIP_DIRS : List String :=
  [".git", "__pycache__", "node_modules", ".venv", "venv",
   ".tox", ".mypy_cache", ".pytest_cache", ".ruff_cache",
   "dist", "build", ".eggs", ".next", ".nuxt",
   "vendor", "target", "Pods"]

/-- config.ALWAYS_SKIP_FILES. -/
def ALWAYS_SKIP_FILES : List String :=
  ["package-lock.json", "yarn.lock", "pnpm-lock.yaml",
   "poetry.lock", "Cargo.lock", "Gemfile.lock",
   "go.sum", "composer.lock"]

/-- config.INDEXABLE_EXTENSIONS (code ∪ text ∪ document extensions). -/
def INDEXABLE_EXTENSIONS : List String :=
  [".py", ".js", ".ts", ".tsx", ".jsx",
   ".go", ".rs", ".java", ".kt", ".scala",
   ".c", ".cpp", ".h", ".hpp", ".cs",
   ".rb", ".php", ".swift", ".m",
   ".sql", ".sh", ".bash", ".zsh",
   ".yaml", ".yml", ".toml", ".json",
   ".html", ".css", ".scss",
   ".tf", ".hcl",
   ".proto", ".graphql",
   ".lua", ".r", ".jl",
   ".ex", ".exs", ".erl",
   ".zig", ".nim", ".v",
   ".dockerfile",
   ".md", ".txt", ".rst", ".csv", ".log",
   ".pdf", ".docx", ".pptx"]

/-- config.MAX_FILE_SIZE_BYTES. -/
def MAX_FILE_SIZE_BYTES : Nat := 10000000

/-- Position of the last dot in a list of characters. -/
def lastDotAux : List Char → Nat → Option Nat → Option Nat
  | [], _, best => best
  | c :: cs, i, best => lastDotAux cs (i + 1) (if c = '.' then some i else best)

/-- pathlib `PurePath.suffix`: the part from the last dot, provided the dot
is neither the first nor the last character of the name. -/
def pathSuffix (name : String) : String :=
  match lastDotAux name.toList 0 none with
  | some i => if 0 < i ∧ i < name.length - 1 then String.mk (name.toList.drop i) else ""
  | none => ""

/-- The directory filter of `walk_repo_files`: not in the skip list and not
starting with a dot. -/
def keepDirName (d : String) : Bool :=
  !(ALWAYS_SKIP_DIRS.contains d) && !(startsWithDot d)

/-- The file filter of `walk_repo_files`: not hidden, not a lockfile,
an indexable extension (lower-cased suffix), and at most 10 MB. -/
def keepFileEntry (name : String) (size : Nat) : Bool :=
  !(startsWithDot name) && !(ALWAYS_SKIP_FILES.contains name) &&
    INDEXABLE_EXTENSIONS.contains (strToLower (pathSuffix name)) &&
    decide (size ≤ MAX_FILE_SIZE_BYTES)

/-- The file members of a directory listing, in enumeration order. -/
def fileEntries : List FsEntry → List (String × Nat)
  | [] => []
  | .file n s :: rest => (n, s) :: fileEntries rest
  | .dir _ _ :: rest => fileEntries rest

/-- The subdirectory members of a directory listing, in enumeration order. -/
def dirEntries : List FsEntry → List (String × List FsEntry)
  | [] => []
  | .file _ _ :: rest => dirEntries rest
  | .dir n es :: rest => (n, es) :: dirEntries rest

/-- Join a relative path prefix with a basename. -/
def joinPath (pre n : String) : String := if pre = "" then n else pre ++ "/" ++ n

/-- indexer.walk_repo_files via `os.walk(topdown)`: emit the kept files of
the directory in enumeration order, then recurse into the kept
subdirectories in enumeration order. -/
def walkFilesF : Nat → String → List FsEntry → List String
  | 0, _, _ => []
  | fuel + 1, pre, es =>
    ((fileEntries es).filter (fun f => keepFileEntry f.1 f.2)).map (fun f => joinPath pre f.1) ++
      ((dirEntries es).filter (fun d => keepDirName d.1)).flatMap
        (fun d => walkFilesF fuel (joinPath pre d.1) d.2)

/-- Stable ordered insertion by basename. -/
def insByName {β : Type} (x : String × β) : List (String × β) → List (String × β)
  | [] => [x]
  | y :: ys => if strLe x.1 y.1 then x :: y :: ys else y :: insByName x ys

/-- Stable insertion sort by basename. -/
def sortByName {β : Type} : List (String × β) → List (String × β)
  | [] => []
  | x :: xs => insByName x (sortByName xs)

/-- Modelled from the spec: the walker the spec describes, which visits the
entries of each directory in stable-sorted basename order.  Identical to
`walkFilesF` except for the two sorts. -/
def walkFilesSortedF : Nat → String → List FsEntry → List String
  | 0, _, _ => []
  | fuel + 1, pre, es =>
    (sortByName ((fileEntries es).filter (fun f => keepFileEntry f.1 f.2))).map
        (fun f => joinPath pre f.1) ++
      (sortByName ((dirEntries es).filter (fun d => keepDirName d.1))).flatMap
        (fun d => walkFilesSortedF fuel (joinPath pre d.1) d.2)

/-- Whether every directory listing of the tree enumerates its files in
basename order and its subdirectories in basename order. -/
def listingsSortedF : Nat → List FsEntry → Bool
  | 0, _ => true
  | fuel + 1, es =>
    decide (((fileEntries es).map (·.1)).Pairwise (fun a b => strLe a b = true)) &&
      decide (((dirEntries es).map (·.1)).Pairwise (fun a b => strLe a b = true)) &&
      (dirEntries es).all (fun d => listingsSortedF fuel d.2)

/-! ## Claim statements under dispute

Each `Prop` below renders one disputed spec sentence over the embeddings, so
that the corresponding counterexample theorem can refute it as stated. -/

/-- The claim that the document chunker reseeds the buffer with the empty
string exactly when the flushed text is smaller than `overlap_chars`. -/
def paragraphOverlapClaim : Prop :=
  ∀ pieces fp page scope lang maxC ovC,
    split_text_by_paragraphs pieces fp page scope lang maxC ovC =
      split_text_by_paragraphs_claim pieces fp page scope lang maxC ovC

/-- The claim that the walker visits every directory's entries in
stable-sorted basename order. -/
def walkerSortedClaim : Prop :=
  ∀ fuel pre es, walkFilesF fuel pre es = walkFilesSortedF fuel pre es

/-- The claim that equal fused RRF scores are finally tie-broken by
lexicographic order of the chunk id. -/
def rrfLexTieClaim : Prop :=
  ∀ lists k, (rrf_merge lists k).Pairwise (fun a b => a.2 = b.2 → strLe a.1 b.1 = true)

/-! # Theorems -/

/-! ## SHA-256 validation and C5 -/

/-- The SHA-256 embedding reproduces the FIPS 180-4 test digests for the
empty string and for "abc" (16-hex-character prefixes). -/
theorem sha256_test_vectors :
    contentHash "" = "e3b0c44298fc1c14" ∧ contentHash "abc" = "ba7816bf8f01cfea" := by
  constructor <;> rfl

/-- C5: every constructed chunk's `content_hash` is the first 16 hex
characters of the SHA-256 digest of `content`, and chunks with equal
content get equal hashes whatever their path, lines, scope or language. -/
theorem C5_content_hash_deterministic (fp1 : String) (sl1 el1 : Int)
    (c1 scope1 lang1 hdr1 : String) (fp2 : String) (sl2 el2 : Int)
    (c2 scope2 lang2 hdr2 : String) (h : c1 = c2) :
    (mkChunk fp1 sl1 el1 c1 scope1 lang1 hdr1).content_hash = (sha256HexString c1).take 16 ∧
      (mkChunk fp1 sl1 el1 c1 scope1 lang1 hdr1).content_hash =
        (mkChunk fp2 sl2 el2 c2 scope2 lang2 hdr2).content_hash := by
  subst h
  constructor
  · simp only [mkChunk]
    unfold contentHash
    rfl
  · simp only [mkChunk]

/-- Witness for C5 at concrete chunks sharing content "x". -/
theorem C5_witness :
    (mkChunk "a.py" 1 2 "x" "function f" "python" "H").content_hash =
        (sha256HexString "x").take 16 ∧
      (mkChunk "a.py" 1 2 "x" "function f" "python" "H").content_hash =
        (mkChunk "b.md" 7 9 "x" "page 1" "unknown" "G").content_hash :=
  C5_content_hash_deterministic "a.py" 1 2 "x" "function f" "python" "H"
    "b.md" 7 9 "x" "page 1" "unknown" "G" rfl

/-! ## C8: document chunker overlap seeding -/

/-- C8 counterexample: with `max_chars = 10`, `overlap_chars = 4` and
paragraphs "aaaa" and "bbbbbbbbb", the flushed text has length exactly 4,
so the source reseeds with the empty string while the claim's rule reseeds
with the whole flushed text; the produced chunk lists differ. -/
theorem C8_counterexample : ¬ paragraphOverlapClaim := by
  intro h
  have h2 := congrArg (List.map (fun c => c.content))
    (h ["aaaa", "bbbbbbbbb"] "d.txt" 1 "page 1" "txt" 10 4)
  exact absurd h2 (by decide)

/-- The source's reseed rule written as the amended claim's rule: empty
exactly when the flushed text is at most `overlap_chars` long (or the
overlap is zero). -/
theorem seed_rule_eq (current : String) (ovC : Nat) :
    (if 0 < ovC ∧ ovC < current.length then pyTakeRight current ovC else "") =
      (if current.length ≤ ovC ∨ ovC = 0 then "" else pyTakeRight current ovC) := by
  by_cases h : 0 < ovC ∧ ovC < current.length
  · rw [if_pos h, if_neg (by omega)]
  · rw [if_neg h, if_pos (by omega)]

/-- The accumulation loops of the source and of the amended claim agree on
every paragraph list and buffer. -/
theorem paraChunks_eq_amended (fp : String) (page : Int) (scope lang : String)
    (maxC ovC : Nat) :
    ∀ (rest : List String) (current : String),
      paraChunks fp page scope lang maxC ovC rest current =
        paraChunksAmended fp page scope lang maxC ovC rest current := by
  intro rest
  induction rest with
  | nil => intro current; rfl
  | cons para rest ih =>
    intro current
    rw [paraChunks, paraChunksAmended, seed_rule_eq]
    by_cases hc : current ≠ "" ∧ maxC < current.length + para.length + 2
    · rw [if_pos hc, if_pos hc, ih]
    · rw [if_neg hc, if_neg hc, ih]

/-- C8 (amended): for every page the paragraphs are accumulated greedily
until adding the next would exceed `max_chars`; the buffer is flushed and
the new buffer is seeded with the last `overlap_chars` characters of the
flushed text, or with the empty string exactly when the flushed text is at
most `overlap_chars` long (in particular also when its length equals
`overlap_chars`) or the overlap is zero. -/
theorem C8_amended_overlap_rule :
    ∀ pieces fp page scope lang maxC ovC,
      split_text_by_paragraphs pieces fp page scope lang maxC ovC =
        split_text_by_paragraphs_amended pieces fp page scope lang maxC ovC := by
  intro pieces fp page scope lang maxC ovC
  rw [split_text_by_paragraphs, split_text_by_paragraphs_amended]
  by_cases h : ((pieces.map pyStrip).filter (fun p => p != "")) = []
  · rw [if_pos h, if_pos h]
  · rw [if_neg h, if_neg h, paraChunks_eq_amended]

/-! ## C10: termination of the windows splitter -/

/-- With a positive stride the windows loop finishes within its fuel: the
index advances by `max_lines - overlap_lines ≥ 1` per iteration. -/
theorem windowsLoop_isSome (lines : List String) (fp lang : String)
    (scopeF : String → String) (maxL ovL : Nat) (off : Int) (hs : ovL < maxL) :
    ∀ (fuel : Nat) (i : Int) (acc : List Chunk), 0 ≤ i → i ≤ (lines.length : Int) →
      (lines.length : Int) - i < (fuel : Int) →
      (windowsLoop lines fp lang scopeF maxL ovL off fuel i acc).isSome = true := by
  intro fuel
  induction fuel with
  | zero => intro i acc h0 hle hfuel; omega
  | succ n ih =>
    intro i acc h0 hle hfuel
    rw [windowsLoop]
    by_cases h1 : i < (lines.length : Int)
    · rw [if_pos h1]
      by_cases h2 : (lines.length : Int) ≤ i + ((maxL : Int) - (ovL : Int))
      · rw [if_pos h2]
        rfl
      · rw [if_neg h2]
        apply ih
        · omega
        · omega
        · omega
    · rw [if_neg h1]
      rfl

/-- With a non-positive stride the loop never exits once entered: the index
never increases past zero, so every fuel is exhausted. -/
theorem windowsLoop_none (lines : List String) (fp lang : String)
    (scopeF : String → String) (maxL ovL : Nat) (off : Int) (hs : maxL ≤ ovL)
    (hlen : 1 ≤ lines.length) :
    ∀ (fuel : Nat) (i : Int) (acc : List Chunk), i ≤ 0 →
      windowsLoop lines fp lang scopeF maxL ovL off fuel i acc = none := by
  intro fuel
  induction fuel with
  | zero => intro i acc h0; rfl
  | succ n ih =>
    intro i acc h0
    rw [windowsLoop]
    rw [if_pos (by omega : i < (lines.length : Int))]
    rw [if_neg (by omega : ¬ (lines.length : Int) ≤ i + ((maxL : Int) - (ovL : Int)))]
    exact ih _ _ (by omega)

/-- C10: whenever `overlap_lines < max_lines` the windows splitter
terminates (fuel `length + 1` suffices, since the loop index strictly
increases by `max_lines - overlap_lines` per iteration), and whenever
`max_lines ≤ overlap_lines` the loop makes no progress: on any non-empty
input it diverges, returning `none` at every fuel. -/
theorem C10_windows_termination (lines : List String) (fp lang : String)
    (scopeF : String → String) (maxL ovL : Nat) (off : Int) :
    (ovL < maxL → (split_by_windows lines fp lang scopeF maxL ovL off).isSome = true) ∧
      (maxL ≤ ovL → lines ≠ [] → ∀ fuel,
        windowsLoop lines fp lang scopeF maxL ovL off fuel 0 [] = none) := by
  constructor
  · intro hs
    apply windowsLoop_isSome lines fp lang scopeF maxL ovL off hs
    · omega
    · exact Int.ofNat_nonneg _
    · omega
  · intro hs hne fuel
    apply windowsLoop_none lines fp lang scopeF maxL ovL off hs
    · rcases lines with _ | ⟨a, as⟩
      · exact absurd rfl hne
      · simp
    · omega

/-- Witness for C10 at a three-line file with stride 1, and divergence of a
one-line file with stride 0 at fuel 5. -/
theorem C10_witness :
    ((split_by_windows ["a", "b", "c"] "f.txt" "unknown" (fun s => s) 2 1 0).isSome = true) ∧
      windowsLoop ["a"] "f.txt" "unknown" (fun s => s) 1 1 0 5 0 [] = none :=
  ⟨(C10_windows_termination ["a", "b", "c"] "f.txt" "unknown" (fun s => s) 2 1 0).1
      (by decide),
    (C10_windows_termination ["a"] "f.txt" "unknown" (fun s => s) 1 1 0).2
      (by decide) (by decide) 5⟩

/-! ## RRF score-dictionary lemmas -/

/-- The computable rational addition is the field addition of `ℚ`. -/
theorem ratAdd_eq (a b : ℚ) : ratAdd a b = a + b := by
  rw [ratAdd, Rat.mkRat_eq_div]
  push_cast
  conv_rhs => rw [← Rat.num_div_den a, ← Rat.num_div_den b]
  have ha : ((a.den : ℚ)) ≠ 0 := Nat.cast_ne_zero.mpr a.den_nz
  have hb : ((b.den : ℚ)) ≠ 0 := Nat.cast_ne_zero.mpr b.den_nz
  field_simp

/-- The computable reciprocal `mkRat 1 n` is the field division `1 / n`. -/
theorem mkRat_one_eq (n : Nat) : mkRat 1 n = 1 / (n : ℚ) := by
  rw [Rat.mkRat_eq_div]
  norm_num

/-- Updating an id's score adds to exactly that id's looked-up value. -/
theorem lookupScore_updateScore_self :
    ∀ (s : List (String × ℚ)) (id : String) (v : ℚ),
      lookupScore (updateScore s id v) id = lookupScore s id + v := by
  intro s id v
  induction s with
  | nil => simp [updateScore, lookupScore]
  | cons x rest ih =>
    by_cases hk : x.1 = id
    · rw [show (x : String × ℚ) = (x.1, x.2) from rfl, updateScore, if_pos hk,
        lookupScore, lookupScore, if_pos hk, if_pos hk]
      exact ratAdd_eq x.2 v
    · rw [show (x : String × ℚ) = (x.1, x.2) from rfl, updateScore, if_neg hk,
        lookupScore, lookupScore, if_neg hk, if_neg hk, ih]

/-- Updating one id leaves every other id's looked-up value unchanged. -/
theorem lookupScore_updateScore_other :
    ∀ (s : List (String × ℚ)) (id : String) (v : ℚ) (id2 : String), id2 ≠ id →
      lookupScore (updateScore s id v) id2 = lookupScore s id2 := by
  intro s id v id2 hne
  induction s with
  | nil =>
    rw [updateScore, lookupScore, lookupScore, if_neg (fun hh => hne hh.symm)]
    rfl
  | cons x rest ih =>
    by_cases hk : x.1 = id
    · rw [show (x : String × ℚ) = (x.1, x.2) from rfl, updateScore, if_pos hk,
        lookupScore, lookupScore]
      have hk2 : x.1 ≠ id2 := fun he => hne (he.symm.trans hk)
      rw [if_neg hk2, if_neg hk2]
    · rw [show (x : String × ℚ) = (x.1, x.2) from rfl, updateScore, if_neg hk,
        lookupScore, lookupScore]
      by_cases hk2 : x.1 = id2
      · rw [if_pos hk2, if_pos hk2]
      · rw [if_neg hk2, if_neg hk2, ih]

/-- Keys after an update: the old keys plus possibly the updated id. -/
theorem mem_keys_updateScore :
    ∀ (s : List (String × ℚ)) (id : String) (v : ℚ) (x : String),
      (x ∈ (updateScore s id v).map (fun p => p.1)) ↔
        (x ∈ s.map (fun p => p.1) ∨ x = id) := by
  intro s id v x
  induction s with
  | nil => simp [updateScore]
  | cons y rest ih =>
    by_cases hk : y.1 = id
    · rw [show (y : String × ℚ) = (y.1, y.2) from rfl, updateScore, if_pos hk]
      simp only [List.map_cons, List.mem_cons]
      constructor
      · intro h; rcases h with h | h
        · exact Or.inl (Or.inl h)
        · exact Or.inl (Or.inr h)
      · intro h; rcases h with (h | h) | h
        · exact Or.inl h
        · exact Or.inr h
        · exact Or.inl (hk ▸ h)
    · rw [show (y : String × ℚ) = (y.1, y.2) from rfl, updateScore, if_neg hk]
      simp only [List.map_cons, List.mem_cons]
      rw [ih]
      constructor
      · intro h; rcases h with h | h | h
        · exact Or.inl (Or.inl h)
        · exact Or.inl (Or.inr h)
        · exact Or.inr h
      · intro h; rcases h with (h | h) | h
        · exact Or.inl h
        · exact Or.inr (Or.inl h)
        · exact Or.inr (Or.inr h)

/-- Updates preserve key distinctness. -/
theorem nodup_keys_updateScore :
    ∀ (s : List (String × ℚ)) (id : String) (v : ℚ),
      (s.map (fun p => p.1)).Nodup → ((updateScore s id v).map (fun p => p.1)).Nodup := by
  intro s id v
  induction s with
  | nil => intro h; simp [updateScore]
  | cons y rest ih =>
    intro h
    rw [List.map_cons, List.nodup_cons] at h
    by_cases hk : y.1 = id
    · rw [show (y : String × ℚ) = (y.1, y.2) from rfl, updateScore, if_pos hk,
        List.map_cons, List.nodup_cons]
      exact ⟨h.1, h.2⟩
    · rw [show (y : String × ℚ) = (y.1, y.2) from rfl, updateScore, if_neg hk,
        List.map_cons, List.nodup_cons]
      refine ⟨?_, ih h.2⟩
      intro hmem
      rcases (mem_keys_updateScore rest id v y.1).mp hmem with hmem | hmem
      · exact h.1 hmem
      · exact hk hmem

/-- The per-list fold never touches ids outside its ranked list. -/
theorem lookupScore_addRanked_not_mem :
    ∀ (l : List String) (n : Nat) (k : Nat) (acc : List (String × ℚ)) (id : String),
      id ∉ l →
      lookupScore ((List.enumFrom n l).foldl
          (fun acc p => updateScore acc p.2 (mkRat 1 (k + p.1 + 1))) acc) id =
        lookupScore acc id := by
  intro l
  induction l with
  | nil => intro n k acc id h; rfl
  | cons x xs ih =>
    intro n k acc id h
    rw [List.enumFrom, List.foldl_cons]
    rw [ih (n + 1) k _ id (fun hm => h (List.mem_cons_of_mem x hm))]
    exact lookupScore_updateScore_other acc x _ id (fun he => h (he ▸ List.mem_cons_self x xs))

/-- The per-list fold adds exactly the reciprocal-rank contribution of the
list, offset by the starting rank `n`. -/
theorem lookupScore_addRanked :
    ∀ (l : List String) (n : Nat) (k : Nat) (acc : List (String × ℚ)) (id : String),
      l.Nodup →
      lookupScore ((List.enumFrom n l).foldl
          (fun acc p => updateScore acc p.2 (mkRat 1 (k + p.1 + 1))) acc) id =
        lookupScore acc id +
          (match rankOf l id with
           | some r => mkRat 1 (k + (n + r) + 1)
           | none => 0) := by
  intro l
  induction l with
  | nil => intro n k acc id h; simp [rankOf, List.enumFrom]
  | cons x xs ih =>
    intro n k acc id h
    rw [List.nodup_cons] at h
    rw [List.enumFrom, List.foldl_cons]
    by_cases hx : x = id
    · subst hx
      rw [lookupScore_addRanked_not_mem xs (n + 1) k _ x h.1,
        lookupScore_updateScore_self, rankOf, if_pos rfl]
      simp
    · rw [ih (n + 1) k _ id h.2, lookupScore_updateScore_other acc x _ id (fun he => hx he.symm),
        rankOf, if_neg hx]
      rcases hr : rankOf xs id with _ | r
      · simp
      · simp only [Option.map_some']
        have harith : n + 1 + r = n + (r + 1) := by omega
        rw [harith]

/-- Keys accumulated by the per-list fold: the old keys plus the list. -/
theorem mem_keys_addRanked :
    ∀ (l : List String) (n : Nat) (k : Nat) (acc : List (String × ℚ)) (x : String),
      (x ∈ ((List.enumFrom n l).foldl
          (fun acc p => updateScore acc p.2 (mkRat 1 (k + p.1 + 1))) acc).map
            (fun p => p.1)) ↔
        (x ∈ acc.map (fun p => p.1) ∨ x ∈ l) := by
  intro l
  induction l with
  | nil => intro n k acc x; simp [List.enumFrom]
  | cons y ys ih =>
    intro n k acc x
    rw [List.enumFrom, List.foldl_cons, ih]
    rw [mem_keys_updateScore]
    simp only [List.mem_cons]
    constructor
    · intro h; rcases h with (h | h) | h
      · exact Or.inl h
      · exact Or.inr (Or.inl h)
      · exact Or.inr (Or.inr h)
    · intro h; rcases h with h | h | h
      · exact Or.inl (Or.inl h)
      · exact Or.inl (Or.inr h)
      · exact Or.inr h

/-- The per-list fold preserves key distinctness. -/
theorem nodup_keys_addRanked :
    ∀ (l : List String) (n : Nat) (k : Nat) (acc : List (String × ℚ)),
      (acc.map (fun p => p.1)).Nodup →
      (((List.enumFrom n l).foldl
          (fun acc p => updateScore acc p.2 (mkRat 1 (k + p.1 + 1))) acc).map
            (fun p => p.1)).Nodup := by
  intro l
  induction l with
  | nil => intro n k acc h; exact h
  | cons y ys ih =>
    intro n k acc h
    rw [List.enumFrom, List.foldl_cons]
    exact ih (n + 1) k _ (nodup_keys_updateScore acc y _ h)

/-- The full fold over all ranked lists computes the spec-side fused score. -/
theorem lookupScore_rrfScores_acc :
    ∀ (lists : List (List String)) (k : Nat) (acc : List (String × ℚ)) (id : String),
      (∀ l ∈ lists, l.Nodup) →
      lookupScore (lists.foldl (addRanked k) acc) id =
        lookupScore acc id + specScore k id lists := by
  intro lists
  induction lists with
  | nil => intro k acc id h; simp [specScore]
  | cons l ls ih =>
    intro k acc id h
    rw [List.foldl_cons]
    rw [ih k _ id (fun x hx => h x (List.mem_cons_of_mem l hx))]
    rw [show addRanked k acc l =
      (List.enumFrom 0 l).foldl
        (fun acc p => updateScore acc p.2 (mkRat 1 (k + p.1 + 1))) acc from rfl]
    rw [lookupScore_addRanked l 0 k acc id (h l (List.mem_cons_self l ls))]
    have hspec : specScore k id (l :: ls) = specContribution k id l + specScore k id ls := by
      rw [specScore, specScore, List.map_cons, List.sum_cons]
    rw [hspec, specContribution]
    rcases rankOf l id with _ | r
    · ring
    · simp only [mkRat_one_eq]
      push_cast
      ring

/-- Ids present in the score dictionary are exactly the candidate ids. -/
theorem mem_keys_rrfScores_acc :
    ∀ (lists : List (List String)) (k : Nat) (acc : List (String × ℚ)) (x : String),
      (x ∈ (lists.foldl (addRanked k) acc).map (fun p => p.1)) ↔
        (x ∈ acc.map (fun p => p.1) ∨ ∃ l ∈ lists, x ∈ l) := by
  intro lists
  induction lists with
  | nil => intro k acc x; simp
  | cons l ls ih =>
    intro k acc x
    rw [List.foldl_cons, ih]
    rw [show addRanked k acc l =
      (List.enumFrom 0 l).foldl
        (fun acc p => updateScore acc p.2 (mkRat 1 (k + p.1 + 1))) acc from rfl]
    rw [mem_keys_addRanked]
    simp only [List.mem_cons]
    constructor
    · intro h
      rcases h with (h | h) | ⟨w, hw, hx⟩
      · exact Or.inl h
      · exact Or.inr ⟨l, Or.inl rfl, h⟩
      · exact Or.inr ⟨w, Or.inr hw, hx⟩
    · intro h
      rcases h with h | ⟨w, hw | hw, hx⟩
      · exact Or.inl (Or.inl h)
      · exact Or.inl (Or.inr (hw ▸ hx))
      · exact Or.inr ⟨w, hw, hx⟩

/-- The score dictionary has pairwise-distinct keys. -/
theorem nodup_keys_rrfScores :
    ∀ (lists : List (List String)) (k : Nat) (acc : List (String × ℚ)),
      (acc.map (fun p => p.1)).Nodup →
      ((lists.foldl (addRanked k) acc).map (fun p => p.1)).Nodup := by
  intro lists
  induction lists with
  | nil => intro k acc h; exact h
  | cons l ls ih =>
    intro k acc h
    rw [List.foldl_cons]
    exact ih k _ (nodup_keys_addRanked l 0 k acc h)

/-- A present key pairs with its looked-up value in the list. -/
theorem mem_pair_of_mem_keys :
    ∀ (s : List (String × ℚ)) (id : String), id ∈ s.map (fun p => p.1) →
      (id, lookupScore s id) ∈ s := by
  intro s
  induction s with
  | nil => intro id h; simp at h
  | cons x rest ih =>
    intro id h
    rw [List.map_cons, List.mem_cons] at h
    by_cases hk : x.1 = id
    · rw [show (x : String × ℚ) = (x.1, x.2) from rfl, lookupScore, if_pos hk, hk]
      exact List.mem_cons_self _ _
    · rcases h with h | h
      · exact absurd h.symm hk
      · rw [show (x : String × ℚ) = (x.1, x.2) from rfl, lookupScore, if_neg hk]
        exact List.mem_cons_of_mem _ (ih id h)

/-- With distinct keys, lookup returns the value of any member pair. -/
theorem lookupScore_of_mem :
    ∀ (s : List (String × ℚ)) (p : String × ℚ),
      (s.map (fun q => q.1)).Nodup → p ∈ s → lookupScore s p.1 = p.2 := by
  intro s
  induction s with
  | nil => intro p h hm; simp at hm
  | cons x rest ih =>
    intro p h hm
    rw [List.map_cons, List.nodup_cons] at h
    rcases List.mem_cons.mp hm with heq | hm2
    · rw [heq, show (x : String × ℚ) = (x.1, x.2) from rfl, lookupScore, if_pos rfl]
    · have hk : x.1 ≠ p.1 := by
        intro he
        exact h.1 (he ▸ List.mem_map.mpr ⟨p, hm2, rfl⟩)
      rw [show (x : String × ℚ) = (x.1, x.2) from rfl, lookupScore, if_neg hk]
      exact ih p h.2 hm2

/-! ## Stable-sort lemmas for `pySortByScoreDesc` -/

/-- The stable-descending entry order is total. -/
theorem entryLe_total : ∀ x y : Nat × String × ℚ, entryLe x y = true ∨ entryLe y x = true := by
  intro x y
  rw [entryLe, entryLe]
  simp only [Bool.or_eq_true, Bool.and_eq_true, decide_eq_true_eq]
  rcases lt_trichotomy x.2.2 y.2.2 with h | h | h
  · exact Or.inr (Or.inl h)
  · rcases Nat.le_total x.1 y.1 with hp | hp
    · exact Or.inl (Or.inr ⟨h, hp⟩)
    · exact Or.inr (Or.inr ⟨h.symm, hp⟩)
  · exact Or.inl (Or.inl h)

/-- The stable-descending entry order is transitive. -/
theorem entryLe_trans : ∀ x y z : Nat × String × ℚ,
    entryLe x y = true → entryLe y z = true → entryLe x z = true := by
  intro x y z
  rw [entryLe, entryLe, entryLe]
  simp only [Bool.or_eq_true, Bool.and_eq_true, decide_eq_true_eq]
  intro h1 h2
  rcases h1 with h1 | ⟨he1, hp1⟩
  · rcases h2 with h2 | ⟨he2, hp2⟩
    · exact Or.inl (lt_trans h2 h1)
    · exact Or.inl (lt_of_eq_of_lt he2.symm h1)
  · rcases h2 with h2 | ⟨he2, hp2⟩
    · exact Or.inl (lt_of_lt_of_eq h2 he1.symm)
    · exact Or.inr ⟨he1.trans he2, le_trans hp1 hp2⟩

/-- Inserting an entry permutes consing it. -/
theorem insEntry_perm : ∀ (x : Nat × String × ℚ) (l : List (Nat × String × ℚ)),
    List.Perm (insEntry x l) (x :: l) := by
  intro x l
  induction l with
  | nil => exact List.Perm.refl _
  | cons y ys ih =>
    rw [insEntry]
    by_cases h : entryLe x y = true
    · rw [if_pos h]
    · rw [if_neg h]
      exact (ih.cons y).trans (List.Perm.swap x y ys)

/-- The stable sort is a permutation. -/
theorem sortEntries_perm : ∀ l : List (Nat × String × ℚ), List.Perm (sortEntries l) l := by
  intro l
  induction l with
  | nil => exact List.Perm.refl _
  | cons x xs ih =>
    rw [sortEntries]
    exact (insEntry_perm x (sortEntries xs)).trans (ih.cons x)

/-- Ordered insertion preserves sortedness. -/
theorem insEntry_pairwise : ∀ (x : Nat × String × ℚ) (l : List (Nat × String × ℚ)),
    l.Pairwise (fun a b => entryLe a b = true) →
    (insEntry x l).Pairwise (fun a b => entryLe a b = true) := by
  intro x l
  induction l with
  | nil => intro h; simp [insEntry]
  | cons y ys ih =>
    intro h
    rw [List.pairwise_cons] at h
    rw [insEntry]
    by_cases hxy : entryLe x y = true
    · rw [if_pos hxy, List.pairwise_cons]
      refine ⟨?_, List.pairwise_cons.mpr h⟩
      intro z hz
      rcases List.mem_cons.mp hz with hz | hz
      · exact hz ▸ hxy
      · exact entryLe_trans x y z hxy (h.1 z hz)
    · rw [if_neg hxy, List.pairwise_cons]
      refine ⟨?_, ih h.2⟩
      intro z hz
      rcases List.mem_cons.mp ((insEntry_perm x ys).mem_iff.mp hz) with hz | hz
      · rcases entryLe_total x y with ht | ht
        · exact absurd ht hxy
        · exact hz ▸ ht
      · exact h.1 z hz

/-- The stable sort sorts by the stable-descending entry order. -/
theorem sortEntries_pairwise : ∀ l : List (Nat × String × ℚ),
    (sortEntries l).Pairwise (fun a b => entryLe a b = true) := by
  intro l
  induction l with
  | nil => simp [sortEntries]
  | cons x xs ih =>
    rw [sortEntries]
    exact insEntry_pairwise x (sortEntries xs) ih

/-! ## Enumeration lemmas -/

/-- `List.enum` is `enumFrom 0`. -/
theorem enum_eq_enumFrom {α : Type} (l : List α) : l.enum = List.enumFrom 0 l := rfl

/-- Dropping the annotation of `enumFrom` restores the list. -/
theorem enumFrom_map_snd {α : Type} :
    ∀ (l : List α) (n : Nat), (List.enumFrom n l).map (fun p => p.2) = l := by
  intro l
  induction l with
  | nil => intro n; rfl
  | cons x xs ih =>
    intro n
    rw [List.enumFrom, List.map_cons, ih]

/-- Members of an enumeration carry members of the list. -/
theorem mem_of_mem_enumFrom {α : Type} :
    ∀ (l : List α) (n : Nat) (p : Nat × α), p ∈ List.enumFrom n l → p.2 ∈ l := by
  intro l
  induction l with
  | nil => intro n p h; simp [List.enumFrom] at h
  | cons x xs ih =>
    intro n p h
    rw [List.enumFrom] at h
    rcases List.mem_cons.mp h with h | h
    · rw [h]
      exact List.mem_cons_self x xs
    · exact List.mem_cons_of_mem x (ih (n + 1) p h)

/-- In a key-distinct score list, an annotated entry's annotation is the
rank of its key among the keys. -/
theorem rankOf_of_mem_enumFrom :
    ∀ (s : List (String × ℚ)) (n : Nat) (p : Nat × String × ℚ),
      (s.map (fun q => q.1)).Nodup → p ∈ List.enumFrom n s →
      n ≤ p.1 ∧ rankOf (s.map (fun q => q.1)) p.2.1 = some (p.1 - n) := by
  intro s
  induction s with
  | nil => intro n p h hm; simp [List.enumFrom] at hm
  | cons x xs ih =>
    intro n p h hm
    rw [List.map_cons, List.nodup_cons] at h
    rw [List.enumFrom] at hm
    rcases List.mem_cons.mp hm with hm | hm
    · rw [hm]
      refine ⟨Nat.le_refl n, ?_⟩
      rw [List.map_cons, rankOf, if_pos rfl, Nat.sub_self]
    · have hsub := ih (n + 1) p h.2 hm
      have hne : x.1 ≠ p.2.1 := by
        intro he
        exact h.1 (he ▸ List.mem_map.mpr ⟨p.2, mem_of_mem_enumFrom xs (n + 1) p hm, rfl⟩)
      refine ⟨by omega, ?_⟩
      rw [List.map_cons, rankOf, if_neg hne, hsub.2, Option.map_some']
      rw [show p.1 - (n + 1) + 1 = p.1 - n from by omega]

/-- `rrf_merge` permutes the score dictionary. -/
theorem rrf_merge_perm : ∀ (lists : List (List String)) (k : Nat),
    List.Perm (rrf_merge lists k) (rrfScores k lists) := by
  intro lists k
  rw [rrf_merge, pySortByScoreDesc]
  have h1 := (sortEntries_perm ((rrfScores k lists).enum)).map (fun p => p.2)
  rw [enum_eq_enumFrom, enumFrom_map_snd] at h1
  exact h1

/-- `entryLe` unfolded to its propositional content. -/
theorem entryLe_iff (x y : Nat × String × ℚ) :
    entryLe x y = true ↔ (y.2.2 < x.2.2 ∨ (x.2.2 = y.2.2 ∧ x.1 ≤ y.1)) := by
  rw [entryLe]
  simp [Bool.or_eq_true, Bool.and_eq_true, decide_eq_true_eq]

/-! ## C3: RRF scoring and ordering -/

/-- C3: the RRF merge assigns every candidate id the fused score
`Σ 1/(60 + r + 1)` over the lists containing it (`r` its 0-based rank
there), returns the pairs sorted by fused score descending, ranks a
rank-0-only id (score 1/61) above a rank-5-only id (score 1/66), and
accumulates both contributions for ids present in both lists. -/
theorem C3_rrf_scoring :
    (∀ (lists : List (List String)) (id : String), (∀ l ∈ lists, l.Nodup) →
        (∃ l ∈ lists, id ∈ l) → (id, specScore 60 id lists) ∈ rrf_merge lists 60) ∧
      (∀ (lists : List (List String)) (k : Nat),
        (rrf_merge lists k).Pairwise (fun a b => b.2 ≤ a.2)) ∧
      rrf_merge [["a"], ["b0", "b1", "b2", "b3", "b4", "c"]] 60 =
        [("a", 1/61), ("b0", 1/61), ("b1", 1/62), ("b2", 1/63), ("b3", 1/64),
         ("b4", 1/65), ("c", 1/66)] ∧
      rrf_merge [["x"], ["x"]] 60 = [("x", 1/61 + 1/61)] := by
  refine ⟨?_, ?_, ?_, ?_⟩
  case refine_3 =>
    rw [show rrf_merge [["a"], ["b0", "b1", "b2", "b3", "b4", "c"]] 60 =
      [("a", mkRat 1 61), ("b0", mkRat 1 61), ("b1", mkRat 1 62), ("b2", mkRat 1 63),
       ("b3", mkRat 1 64), ("b4", mkRat 1 65), ("c", mkRat 1 66)] from by decide]
    norm_num [Rat.mkRat_eq_div]
  case refine_4 =>
    rw [show rrf_merge [["x"], ["x"]] 60 = [("x", mkRat 2 61)] from by decide]
    norm_num [Rat.mkRat_eq_div]
  · intro lists id hnd hex
    have hkeys : id ∈ (rrfScores 60 lists).map (fun p => p.1) := by
      rw [rrfScores]
      exact (mem_keys_rrfScores_acc lists 60 [] id).mpr (Or.inr hex)
    have hlook : lookupScore (rrfScores 60 lists) id = specScore 60 id lists := by
      rw [rrfScores]
      have h1 := lookupScore_rrfScores_acc lists 60 [] id hnd
      rw [show lookupScore [] id = 0 from rfl, zero_add] at h1
      exact h1
    have hpair := mem_pair_of_mem_keys (rrfScores 60 lists) id hkeys
    rw [hlook] at hpair
    exact (rrf_merge_perm lists 60).mem_iff.mpr hpair
  · intro lists k
    rw [rrf_merge, pySortByScoreDesc]
    apply List.pairwise_map.mpr
    apply (sortEntries_pairwise ((rrfScores k lists).enum)).imp
    intro a b hab
    rcases (entryLe_iff a b).mp hab with h | h
    · exact le_of_lt h
    · exact le_of_eq h.1.symm

/-- Witness for C3 at two concrete candidate lists. -/
theorem C3_witness :
    ("a", specScore 60 "a" [["a"], ["b", "a"]]) ∈ rrf_merge [["a"], ["b", "a"]] 60 :=
  C3_rrf_scoring.1 [["a"], ["b", "a"]] "a" (by decide) (by decide)

/-! ## C2: tie-breaking in the RRF merge -/

/-- C2 counterexample: two single-element candidate lists produce the tie
`("b", 1/61), ("a", 1/61)` in first-encounter order, which is not
lexicographic order of the chunk ids. -/
theorem C2_counterexample : ¬ rrfLexTieClaim := by
  intro h
  have h2 := h [["b"], ["a"]] 60
  rw [show rrf_merge [["b"], ["a"]] 60 = [("b", mkRat 1 61), ("a", mkRat 1 61)] from by decide]
    at h2
  rw [List.pairwise_cons] at h2
  have h3 := h2.1 ("a", mkRat 1 61) (List.mem_cons_self _ _) rfl
  exact absurd h3 (by decide)

/-- C2 (amended): within the RRF merge output, a pair either has strictly
larger fused score than every later pair, or ties are ordered by first
encounter: the position of the id in the insertion-ordered score dictionary
(first list, then rank, governs that position).  The output is a function
of the two input lists alone, so the merge is deterministic; it has no
raw-score or lexicographic tiebreak. -/
theorem C2_amended_stable_ties :
    ∀ (lists : List (List String)) (k : Nat),
      (rrf_merge lists k).Pairwise (fun a b => b.2 < a.2 ∨ (a.2 = b.2 ∧
        ∃ i j, rankOf ((rrfScores k lists).map (fun p => p.1)) a.1 = some i ∧
          rankOf ((rrfScores k lists).map (fun p => p.1)) b.1 = some j ∧ i ≤ j)) := by
  intro lists k
  have hnd : ((rrfScores k lists).map (fun p => p.1)).Nodup := by
    rw [rrfScores]
    exact nodup_keys_rrfScores lists k [] (by simp)
  rw [rrf_merge, pySortByScoreDesc]
  apply List.pairwise_map.mpr
  apply List.Pairwise.imp_of_mem ?_ (sortEntries_pairwise ((rrfScores k lists).enum))
  intro a b ha hb hab
  have ha2 := rankOf_of_mem_enumFrom (rrfScores k lists) 0 a hnd
    ((sortEntries_perm _).mem_iff.mp ha)
  have hb2 := rankOf_of_mem_enumFrom (rrfScores k lists) 0 b hnd
    ((sortEntries_perm _).mem_iff.mp hb)
  rcases (entryLe_iff a b).mp hab with h | h
  · exact Or.inl h
  · refine Or.inr ⟨h.1, a.1, b.1, ?_, ?_, h.2⟩
    · rw [ha2.2, Nat.sub_zero]
    · rw [hb2.2, Nat.sub_zero]

/-! ## C7 and C9: hydration, snippets, scores -/

/-- On key-distinct pair lists, `find?` by key returns the member pair. -/
theorem find?_eq_of_mem_nodup :
    ∀ (pairs : List (String × ℚ)) (p : String × ℚ),
      (pairs.map (fun q => q.1)).Nodup → p ∈ pairs →
      pairs.find? (fun q => q.1 == p.1) = some p := by
  intro pairs
  induction pairs with
  | nil => intro p h hm; simp at hm
  | cons x rest ih =>
    intro p h hm
    rw [List.map_cons, List.nodup_cons] at h
    rcases List.mem_cons.mp hm with heq | hm2
    · rw [heq, List.find?_cons_of_pos _ (by simp)]
    · have hkf : (x.1 == p.1) = false := by
        simp only [beq_eq_false_iff_ne]
        intro he
        exact h.1 (he ▸ List.mem_map.mpr ⟨p, hm2, rfl⟩)
      rw [List.find?_cons, hkf]
      exact ih p h.2 hm2

/-- On key-distinct pair lists, the Python dict lookup returns the member
pair's value. -/
theorem dictGetD_of_mem :
    ∀ (pairs : List (String × ℚ)) (p : String × ℚ),
      (pairs.map (fun q => q.1)).Nodup → p ∈ pairs → dictGetD pairs p.1 0 = p.2 := by
  intro pairs p h hm
  rw [dictGetD]
  have hrev : (pairs.reverse.map (fun q => q.1)).Nodup := by
    rw [List.map_reverse]
    exact List.nodup_reverse.mpr h
  rw [find?_eq_of_mem_nodup pairs.reverse p hrev (List.mem_reverse.mpr hm)]

/-- Every result of `buildResults` arises from a candidate id with
metadata, and is exactly the record the source constructs for it. -/
theorem mem_buildResults :
    ∀ (ids : List String) (smap : List (String × ℚ)) (meta : String → Option ChunkMeta)
      (r : SearchResult), r ∈ buildResults ids smap meta →
      ∃ cid ∈ ids, ∃ m, meta cid = some m ∧
        r = { file_path := m.file_path, start_line := m.start_line, end_line := m.end_line,
              snippet := if 1500 < m.content.length then
                  m.content.take 1500 ++ "\n... (truncated)" else m.content,
              score := round6 (dictGetD smap cid 0), scope := m.scope, chunk_id := cid } := by
  intro ids smap meta r h
  rw [buildResults] at h
  obtain ⟨cid, hcid, hf⟩ := List.mem_filterMap.mp h
  rcases hmeta : meta cid with _ | m
  · rw [hmeta] at hf
    simp at hf
  · rw [hmeta] at hf
    simp only [Option.some.injEq] at hf
    exact ⟨cid, hcid, m, hmeta, hf.symm⟩

/-- The chunk ids of the built results form a sublist of the candidate ids. -/
theorem buildResults_ids_sublist :
    ∀ (ids : List String) (smap : List (String × ℚ)) (meta : String → Option ChunkMeta),
      ((buildResults ids smap meta).map (fun r => r.chunk_id)).Sublist ids := by
  intro ids smap meta
  induction ids with
  | nil => simp [buildResults]
  | cons cid rest ih =>
    rw [buildResults, List.filterMap_cons]
    rcases meta cid with _ | m
    · exact List.Sublist.cons cid ih
    · rw [List.map_cons]
      exact List.Sublist.cons₂ cid ih

/-- The keys of the RRF merge output are pairwise distinct. -/
theorem nodup_keys_rrf_merge (lists : List (List String)) (k : Nat) :
    ((rrf_merge lists k).map (fun p => p.1)).Nodup := by
  have hknd : ((rrfScores k lists).map (fun p => p.1)).Nodup := by
    rw [rrfScores]
    exact nodup_keys_rrfScores lists k [] (by simp)
  exact (((rrf_merge_perm lists k).map (fun p => p.1)).nodup_iff).mpr hknd

/-- C7: every hybrid search result is hydrated from stored metadata: its
snippet is the stored content, truncated to 1500 characters plus the
explicit marker exactly when longer than 1500; and its score is the fused
RRF score of its chunk id rounded to 6 decimal places. -/
theorem C7_snippet_truncation_and_score (vec_ids bm25_ids : List String) (top_k : Nat)
    (meta : String → Option ChunkMeta) (r : SearchResult)
    (h1 : vec_ids.Nodup) (h2 : bm25_ids.Nodup)
    (hr : r ∈ hybrid_search vec_ids bm25_ids top_k meta) :
    ∃ m, meta r.chunk_id = some m ∧
      r.snippet = (if 1500 < m.content.length then
        m.content.take 1500 ++ "\n... (truncated)" else m.content) ∧
      r.score = round6 (specScore 60 r.chunk_id [vec_ids, bm25_ids]) := by
  rw [hybrid_search] at hr
  by_cases hempty : vec_ids = [] ∧ bm25_ids = []
  · rw [if_pos hempty] at hr
    simp at hr
  · rw [if_neg hempty] at hr
    obtain ⟨cid, hcid, m, hmeta, hre⟩ := mem_buildResults _ _ _ _ hr
    have hknd : ((rrfScores 60 [vec_ids, bm25_ids]).map (fun p => p.1)).Nodup := by
      rw [rrfScores]
      exact nodup_keys_rrfScores _ 60 [] (by simp)
    have htknd : (((rrf_merge [vec_ids, bm25_ids] 60).take top_k).map
        (fun p => p.1)).Nodup := by
      rw [List.map_take]
      exact (nodup_keys_rrf_merge [vec_ids, bm25_ids] 60).sublist
        (List.take_sublist top_k _)
    obtain ⟨p, hp, hpcid⟩ := List.mem_map.mp hcid
    have hdict : dictGetD ((rrf_merge [vec_ids, bm25_ids] 60).take top_k) cid 0 = p.2 := by
      rw [← hpcid]
      exact dictGetD_of_mem _ p htknd hp
    have hpm : p ∈ rrfScores 60 [vec_ids, bm25_ids] :=
      (rrf_merge_perm _ 60).mem_iff.mp ((List.take_sublist top_k _).subset hp)
    have hval : p.2 = specScore 60 p.1 [vec_ids, bm25_ids] := by
      have hl := lookupScore_of_mem _ p hknd hpm
      have hs := lookupScore_rrfScores_acc [vec_ids, bm25_ids] 60 [] p.1 ?_
      · rw [show lookupScore [] p.1 = 0 from rfl, zero_add, ← rrfScores] at hs
        rw [← hl, hs]
      · intro l hm
        rcases List.mem_cons.mp hm with hm | hm
        · exact hm ▸ h1
        · rcases List.mem_cons.mp hm with hm | hm
          · exact hm ▸ h2
          · simp at hm
    refine ⟨m, ?_, ?_, ?_⟩
    · rw [hre]
      exact hmeta
    · rw [hre]
    · rw [hre]
      show round6 (dictGetD _ cid 0) = _
      rw [hdict, hval, hpcid]

/-- Witness for C7 at one vector candidate with stored metadata. -/
theorem C7_witness :
    ∃ m, (fun id => if id = "a" then
        some (⟨"f.py", 1, 2, "s", "python", "h", "hello"⟩ : ChunkMeta) else none)
          (SearchResult.chunk_id ⟨"f.py", 1, 2, "hello", mkRat 16393 1000000, "s", "a"⟩) =
        some m ∧
      SearchResult.snippet ⟨"f.py", 1, 2, "hello", mkRat 16393 1000000, "s", "a"⟩ =
        (if 1500 < m.content.length then
          m.content.take 1500 ++ "\n... (truncated)" else m.content) ∧
      SearchResult.score ⟨"f.py", 1, 2, "hello", mkRat 16393 1000000, "s", "a"⟩ =
        round6 (specScore 60
          (SearchResult.chunk_id ⟨"f.py", 1, 2, "hello", mkRat 16393 1000000, "s", "a"⟩)
          [["a"], []]) :=
  C7_snippet_truncation_and_score ["a"] [] 1
    (fun id => if id = "a" then
      some (⟨"f.py", 1, 2, "s", "python", "h", "hello"⟩ : ChunkMeta) else none)
    ⟨"f.py", 1, 2, "hello", mkRat 16393 1000000, "s", "a"⟩
    (by decide) (by decide) (by decide)

/-- C9: hybrid search fabricates nothing: every returned chunk id came from
the vector or the BM25 candidate list, ids are pairwise distinct in the
output, candidates without a metadata row are silently omitted, and (shown
on a concrete instance) the output can have fewer than `top_k` entries even
when the fused candidate list has at least `top_k` ids. -/
theorem C9_hybrid_no_fabrication :
    (∀ (vec_ids bm25_ids : List String) (top_k : Nat) (meta : String → Option ChunkMeta),
        (∀ r ∈ hybrid_search vec_ids bm25_ids top_k meta,
            r.chunk_id ∈ vec_ids ∨ r.chunk_id ∈ bm25_ids) ∧
          ((hybrid_search vec_ids bm25_ids top_k meta).map (fun r => r.chunk_id)).Nodup ∧
          (∀ r ∈ hybrid_search vec_ids bm25_ids top_k meta, meta r.chunk_id ≠ none)) ∧
      1 ≤ (rrf_merge [["a"], []] 60).length ∧
      hybrid_search ["a"] [] 1 (fun _ => none) = [] := by
  refine ⟨?_, by decide, by decide⟩
  intro vec_ids bm25_ids top_k meta
  by_cases hempty : vec_ids = [] ∧ bm25_ids = []
  · rw [hybrid_search, if_pos hempty]
    refine ⟨?_, by simp, ?_⟩ <;> intro r hmem <;> simp at hmem
  · have hunf : hybrid_search vec_ids bm25_ids top_k meta =
        buildResults (((rrf_merge [vec_ids, bm25_ids] 60).take top_k).map (fun p => p.1))
          ((rrf_merge [vec_ids, bm25_ids] 60).take top_k) meta := by
      rw [hybrid_search, if_neg hempty]
    refine ⟨?_, ?_, ?_⟩
    · intro r hmem
      rw [hunf] at hmem
      obtain ⟨cid, hcid, m, hmeta, hre⟩ := mem_buildResults _ _ _ _ hmem
      obtain ⟨p, hp, hpcid⟩ := List.mem_map.mp hcid
      have hpm : p ∈ rrfScores 60 [vec_ids, bm25_ids] :=
        (rrf_merge_perm _ 60).mem_iff.mp ((List.take_sublist top_k _).subset hp)
      have hkey : p.1 ∈ (rrfScores 60 [vec_ids, bm25_ids]).map (fun q => q.1) :=
        List.mem_map.mpr ⟨p, hpm, rfl⟩
      rw [rrfScores] at hkey
      rcases (mem_keys_rrfScores_acc [vec_ids, bm25_ids] 60 [] p.1).mp hkey with hk | hk
      · simp at hk
      · obtain ⟨l, hl, hml⟩ := hk
        have hchunk : r.chunk_id = p.1 := by
          rw [hre, hpcid]
        rcases List.mem_cons.mp hl with hl | hl
        · refine Or.inl ?_
          rw [hchunk]
          exact hl ▸ hml
        · rcases List.mem_cons.mp hl with hl | hl
          · refine Or.inr ?_
            rw [hchunk]
            exact hl ▸ hml
          · simp at hl
    · rw [hunf]
      have hsub := buildResults_ids_sublist
        (((rrf_merge [vec_ids, bm25_ids] 60).take top_k).map (fun p => p.1))
        ((rrf_merge [vec_ids, bm25_ids] 60).take top_k) meta
      have htknd : (((rrf_merge [vec_ids, bm25_ids] 60).take top_k).map
          (fun p => p.1)).Nodup := by
        rw [List.map_take]
        exact (nodup_keys_rrf_merge [vec_ids, bm25_ids] 60).sublist
          (List.take_sublist top_k _)
      exact htknd.sublist hsub
    · intro r hmem
      rw [hunf] at hmem
      obtain ⟨cid, hcid, m, hmeta, hre⟩ := mem_buildResults _ _ _ _ hmem
      rw [hre]
      show meta cid ≠ none
      rw [hmeta]
      simp

/-- Witness for C9: a vector candidate with metadata and a BM25 candidate
without; the returned result's id is a candidate id and has metadata. -/
theorem C9_witness :
    ((SearchResult.chunk_id ⟨"g.py", 3, 4, "w", mkRat 16393 1000000, "t", "p"⟩) ∈
          ["p"] ∨
        (SearchResult.chunk_id ⟨"g.py", 3, 4, "w", mkRat 16393 1000000, "t", "p"⟩) ∈
          ["q"]) ∧
      (fun id => if id = "p" then
          some (⟨"g.py", 3, 4, "t", "python", "hh", "w"⟩ : ChunkMeta) else none)
        (SearchResult.chunk_id ⟨"g.py", 3, 4, "w", mkRat 16393 1000000, "t", "p"⟩) ≠
        none :=
  ⟨((C9_hybrid_no_fabrication.1 ["p"] ["q"] 2
      (fun id => if id = "p" then
        some (⟨"g.py", 3, 4, "t", "python", "hh", "w"⟩ : ChunkMeta) else none)).1
        ⟨"g.py", 3, 4, "w", mkRat 16393 1000000, "t", "p"⟩ (by decide)),
    ((C9_hybrid_no_fabrication.1 ["p"] ["q"] 2
      (fun id => if id = "p" then
        some (⟨"g.py", 3, 4, "t", "python", "hh", "w"⟩ : ChunkMeta) else none)).2.2
        ⟨"g.py", 3, 4, "w", mkRat 16393 1000000, "t", "p"⟩ (by decide))⟩

/-! ## C6: walker traversal order -/

/-- C6 counterexample: a directory whose OS enumeration lists `b.py` before
`a.py` is walked in that order, not in stable-sorted basename order. -/
theorem C6_counterexample : ¬ walkerSortedClaim := by
  intro h
  have h2 := h 1 "" [.file "b.py" 1, .file "a.py" 1]
  exact absurd h2 (by decide)

/-- Insertion sort by basename leaves an already-sorted pair list unchanged. -/
theorem sortByName_of_pairwise {β : Type} :
    ∀ (l : List (String × β)),
      (l.map (fun p => p.1)).Pairwise (fun a b => strLe a b = true) → sortByName l = l := by
  intro l
  induction l with
  | nil => intro h; rfl
  | cons x xs ih =>
    intro h
    rw [List.map_cons, List.pairwise_cons] at h
    rw [sortByName, ih h.2]
    cases xs with
    | nil => rfl
    | cons y ys =>
      rw [insByName, if_pos (h.1 y.1 (by simp))]

/-- Extensionality for `flatMap` over the members of a list. -/
theorem flatMap_congr_mem {α β : Type} :
    ∀ (l : List α) (f g : α → List β), (∀ x ∈ l, f x = g x) →
      l.flatMap f = l.flatMap g := by
  intro l
  induction l with
  | nil => intro f g h; rfl
  | cons x xs ih =>
    intro f g h
    rw [List.flatMap_cons, List.flatMap_cons, h x (by simp), ih f g]
    intro y hy
    exact h y (by simp [hy])

/-- C6 (amended): the walker is depth-first and deterministic given the OS
enumeration order, visiting each directory's kept files and kept
subdirectories in enumeration order; it coincides with the spec's
stable-sorted-basename traversal exactly on trees whose directory listings
are already enumerated in sorted order (at every fuel). -/
theorem C6_amended_walk_enumeration_order :
    ∀ (fuel : Nat) (pre : String) (es : List FsEntry),
      listingsSortedF fuel es = true →
      walkFilesF fuel pre es = walkFilesSortedF fuel pre es := by
  intro fuel
  induction fuel with
  | zero => intro pre es h; rfl
  | succ n ih =>
    intro pre es h
    rw [listingsSortedF] at h
    simp only [Bool.and_eq_true, decide_eq_true_eq, List.all_eq_true] at h
    have hfiles : (((fileEntries es).filter (fun f => keepFileEntry f.1 f.2)).map
        (fun p => p.1)).Pairwise (fun a b => strLe a b = true) :=
      h.1.1.sublist (List.Sublist.map _ (List.filter_sublist _))
    have hdirs : (((dirEntries es).filter (fun d => keepDirName d.1)).map
        (fun p => p.1)).Pairwise (fun a b => strLe a b = true) :=
      h.1.2.sublist (List.Sublist.map _ (List.filter_sublist _))
    rw [walkFilesF, walkFilesSortedF, sortByName_of_pairwise _ hfiles,
      sortByName_of_pairwise _ hdirs]
    congr 1
    apply flatMap_congr_mem
    intro d hd
    exact ih (joinPath pre d.1) d.2 (h.2 d (List.mem_of_mem_filter hd))

/-- Witness for the amended C6 at a small tree with sorted listings. -/
theorem C6_witness :
    listingsSortedF 2 [.dir "src" [.file "m.py" 4], .file "a.py" 1] = true ∧
      walkFilesF 2 "" [.dir "src" [.file "m.py" 4], .file "a.py" 1] =
        walkFilesSortedF 2 "" [.dir "src" [.file "m.py" 4], .file "a.py" 1] :=
  ⟨by decide, C6_amended_walk_enumeration_order 2 ""
    [.dir "src" [.file "m.py" 4], .file "a.py" 1] (by decide)⟩

/-! ## C4: idempotence of re-indexing an unchanged folder -/

/-- Bool membership test agrees with list membership for strings. -/
theorem strContains_iff (l : List String) (x : String) : l.contains x = true ↔ x ∈ l := by
  induction l with
  | nil => simp [List.contains]
  | cons a as ih =>
    simp [List.contains] at ih ⊢

/-- Mutually inclusive id lists pass the Python set-equality test. -/
theorem setEqStr_of_subsets (a b : List String) (h1 : a ⊆ b) (h2 : b ⊆ a) :
    setEqStr a b = true := by
  rw [setEqStr, Bool.and_eq_true, List.all_eq_true, List.all_eq_true]
  constructor
  · intro x hx
    exact (strContains_iff b x).mpr (h1 hx)
  · intro x hx
    exact (strContains_iff a x).mpr (h2 hx)

/-- When every chunk's hash is among the stored values, the per-chunk loop
skips everything and touches neither the counter shape nor the batch. -/
theorem chunkStep_fold_all_skip :
    ∀ (chunks : List IChunk) (vals : List String) (rel : String) (sk : Nat)
      (batch : List Row), (∀ c ∈ chunks, c.content_hash ∈ vals) →
      chunks.foldl (chunkStep vals false rel) (sk, batch) = (sk + chunks.length, batch) := by
  intro chunks
  induction chunks with
  | nil => intro vals rel sk batch h; simp
  | cons c cs ih =>
    intro vals rel sk batch h
    rw [List.foldl_cons, chunkStep,
      if_pos ⟨(strContains_iff vals c.content_hash).mpr (h c (List.mem_cons_self c cs)), rfl⟩]
    rw [ih vals rel (sk + 1) batch (fun d hd => h d (List.mem_cons_of_mem c hd))]
    rw [List.length_cons]
    rw [show sk + 1 + cs.length = sk + (cs.length + 1) from by omega]

/-- A file whose stored chunk map matches its freshly computed chunks is a
no-op for the store and the batch: every chunk is counted as skipped. -/
theorem processFile_unchanged (f : String × List IChunk) (s : List Row) (cr sk : Nat)
    (hsub1 : ∀ p ∈ getChunkHashes s f.1, p ∈ f.2.map (fun c => (c.chunk_id, c.content_hash)))
    (hsub2 : ∀ p ∈ f.2.map (fun c => (c.chunk_id, c.content_hash)), p ∈ getChunkHashes s f.1) :
    processFile false { store := s, created := cr, skipped := sk, batch := [] } f =
      { store := s, created := cr, skipped := sk + f.2.length, batch := [] } := by
  rw [processFile]
  by_cases hnil : f.2 = []
  · rw [if_pos hnil, hnil]
    simp
  · rw [if_neg hnil]
    have hids1 : f.2.map (fun c => c.chunk_id) ⊆ (getChunkHashes s f.1).map (fun p => p.1) := by
      intro x hx
      obtain ⟨c, hc, hcx⟩ := List.mem_map.mp hx
      exact List.mem_map.mpr ⟨(c.chunk_id, c.content_hash),
        hsub2 _ (List.mem_map.mpr ⟨c, hc, rfl⟩), hcx⟩
    have hids2 : (getChunkHashes s f.1).map (fun p => p.1) ⊆ f.2.map (fun c => c.chunk_id) := by
      intro x hx
      obtain ⟨p, hp, hpx⟩ := List.mem_map.mp hx
      obtain ⟨c, hc, hcp⟩ := List.mem_map.mp (hsub1 p hp)
      refine List.mem_map.mpr ⟨c, hc, ?_⟩
      rw [← hpx, ← hcp]
    have hset := setEqStr_of_subsets _ _ hids1 hids2
    have hskip : ∀ c ∈ f.2, c.content_hash ∈ (getChunkHashes s f.1).map (fun p => p.2) := by
      intro c hc
      exact List.mem_map.mpr ⟨(c.chunk_id, c.content_hash),
        hsub2 _ (List.mem_map.mpr ⟨c, hc, rfl⟩), rfl⟩
    simp only [hset,
      chunkStep_fold_all_skip f.2 ((getChunkHashes s f.1).map (fun p => p.2)) f.1 sk [] hskip]
    simp

/-- Folding the file loop over an unchanged folder leaves the store intact,
keeps the batch empty, and counts every chunk as skipped. -/
theorem fold_processFile_unchanged :
    ∀ (files : List (String × List IChunk)) (s : List Row) (cr sk : Nat),
      (∀ f ∈ files,
        (∀ p ∈ getChunkHashes s f.1, p ∈ f.2.map (fun c => (c.chunk_id, c.content_hash))) ∧
        (∀ p ∈ f.2.map (fun c => (c.chunk_id, c.content_hash)), p ∈ getChunkHashes s f.1)) →
      files.foldl (processFile false) { store := s, created := cr, skipped := sk, batch := [] } =
        { store := s, created := cr,
          skipped := sk + (files.map (fun f => f.2.length)).sum, batch := [] } := by
  intro files
  induction files with
  | nil => intro s cr sk h; simp
  | cons f fs ih =>
    intro s cr sk h
    have hf := h f (List.mem_cons_self f fs)
    rw [List.foldl_cons, processFile_unchanged f s cr sk hf.1 hf.2]
    rw [ih s cr (sk + f.2.length) (fun g hg => h g (List.mem_cons_of_mem f hg))]
    rw [List.map_cons, List.sum_cons]
    rw [show sk + f.2.length + (fs.map (fun f => f.2.length)).sum =
      sk + (f.2.length + (fs.map (fun f => f.2.length)).sum) from by omega]

/-- Splitting a row list by a Boolean predicate splits its length. -/
theorem length_filter_split {α : Type} :
    ∀ (l : List α) (p : α → Bool),
      l.length = (l.filter p).length + (l.filter (fun r => !(p r))).length := by
  intro l p
  induction l with
  | nil => rfl
  | cons x xs ih =>
    by_cases hx : p x = true
    · rw [List.length_cons, List.filter_cons, if_pos hx, List.filter_cons,
        if_neg (by simp [hx]), List.length_cons, ih]
      omega
    · rw [List.length_cons, List.filter_cons, if_neg (by simp_all), List.filter_cons,
        if_pos (by simp_all), List.length_cons, ih]
      omega

/-- Filtering out one file's rows does not change another file's rows. -/
theorem filter_drop_other (rel other : String) (hne : other ≠ rel) :
    ∀ (s : List Row),
      (s.filter (fun r => !(r.file_path == rel))).filter (fun r => r.file_path == other) =
        s.filter (fun r => r.file_path == other) := by
  intro s
  induction s with
  | nil => rfl
  | cons r rs ih =>
    by_cases h1 : r.file_path = rel
    · have h2 : ¬(r.file_path == other) = true := by
        simp [h1]
        exact fun he => hne he.symm
      rw [List.filter_cons, if_neg (by simp [h1]), List.filter_cons, if_neg h2, ih]
    · rw [List.filter_cons, if_pos (by simp [h1])]
      rw [List.filter_cons, List.filter_cons, ih]

/-- Rows of other files are unaffected by dropping one file's rows. -/
theorem getChunkHashes_filter_ne (s : List Row) (rel other : String) (hne : other ≠ rel) :
    getChunkHashes (s.filter (fun r => !(r.file_path == rel))) other =
      getChunkHashes s other := by
  rw [getChunkHashes, getChunkHashes, filter_drop_other rel other hne s]

/-- A store whose rows belong to the listed files and agree file-by-file
with the computed chunk maps has exactly as many rows as there are chunks. -/
theorem store_length_eq_total :
    ∀ (files : List (String × List IChunk)) (s : List Row),
      (s.map (fun r => r.chunk_id)).Nodup →
      (∀ r ∈ s, r.file_path ∈ files.map (fun f => f.1)) →
      ((files.map (fun f => f.1)).Nodup) →
      (∀ f ∈ files, (f.2.map (fun c => c.chunk_id)).Nodup ∧
        (∀ p ∈ getChunkHashes s f.1, p ∈ f.2.map (fun c => (c.chunk_id, c.content_hash))) ∧
        (∀ p ∈ f.2.map (fun c => (c.chunk_id, c.content_hash)), p ∈ getChunkHashes s f.1)) →
      s.length = (files.map (fun f => f.2.length)).sum := by
  intro files
  induction files with
  | nil =>
    intro s hk hp hr hm
    rcases s with _ | ⟨r, rs⟩
    · rfl
    · have := hp r (List.mem_cons_self r rs)
      simp at this
  | cons f fs ih =>
    intro s hk hp hr hm
    have hsplit := length_filter_split s (fun r => r.file_path == f.1)
    have hmf := hm f (List.mem_cons_self f fs)
    have hfeq : (s.filter (fun r => r.file_path == f.1)).length = f.2.length := by
      have hAnd : ((getChunkHashes s f.1).map (fun p => p.1)).Nodup := by
        rw [getChunkHashes, List.map_map]
        exact hk.sublist (List.Sublist.map _ (List.filter_sublist s))
      have hBnd : ((f.2.map (fun c => (c.chunk_id, c.content_hash))).map
          (fun p => p.1)).Nodup := by
        rw [List.map_map]
        exact hmf.1
      have hAn : (getChunkHashes s f.1).Nodup := List.Nodup.of_map _ hAnd
      have hBn : (f.2.map (fun c => (c.chunk_id, c.content_hash))).Nodup :=
        List.Nodup.of_map _ hBnd
      have hfin : (getChunkHashes s f.1).toFinset =
          (f.2.map (fun c => (c.chunk_id, c.content_hash))).toFinset := by
        apply Finset.ext
        intro p
        rw [List.mem_toFinset, List.mem_toFinset]
        exact ⟨fun hpp => hmf.2.1 p hpp, fun hpp => hmf.2.2 p hpp⟩
      have hlen : (getChunkHashes s f.1).length =
          (f.2.map (fun c => (c.chunk_id, c.content_hash))).length := by
        rw [← List.toFinset_card_of_nodup hAn, ← List.toFinset_card_of_nodup hBn, hfin]
      rw [getChunkHashes, List.length_map, List.length_map] at hlen
      exact hlen
    have hrest : (s.filter (fun r => !(r.file_path == f.1))).length =
        (fs.map (fun f => f.2.length)).sum := by
      apply ih
      · exact hk.sublist (List.Sublist.map _ (List.filter_sublist s))
      · intro r hrm
        have hrs := List.mem_of_mem_filter hrm
        have hin := hp r hrs
        rw [List.map_cons] at hin
        rcases List.mem_cons.mp hin with hin | hin
        · have hpred := List.of_mem_filter hrm
          simp [hin] at hpred
        · exact hin
      · rw [List.map_cons, List.nodup_cons] at hr
        exact hr.2
      · intro g hg
        have hgf : g.1 ≠ f.1 := by
          rw [List.map_cons, List.nodup_cons] at hr
          intro he
          exact hr.1 (he ▸ List.mem_map.mpr ⟨g, hg, rfl⟩)
        rw [getChunkHashes_filter_ne s f.1 g.1 hgf]
        exact hm g (List.mem_cons_of_mem f hg)
    rw [List.map_cons, List.sum_cons, ← hfeq, ← hrest]
    exact hsplit

/-- C4 counterexample: the document chunker can emit duplicate chunk ids in
one file (a page whose flushed buffers repeat verbatim: paragraphs
"aaaa","bbb","bbb","bbb" at `max_chars = 10`, `overlap_chars = 4` flush
"\nbbb\n\nbbb" twice with the same page number, hence the same id).  On
such a folder a first index run stores 2 deduplicated rows for the 3
computed chunks; re-running on the unchanged folder leaves the store
identical and creates nothing, but reports `chunks_skipped_unchanged = 3`
while `total_chunks = 2`, so `chunks_skipped_unchanged == total_chunks`
fails as stated. -/
theorem C4_counterexample :
    ¬ ((split_text_by_paragraphs ["aaaa", "bbb", "bbb", "bbb"] "d.pdf" 1 "page 1" "pdf"
          10 4).map Chunk.chunkId).Nodup ∧
      (index_repo
          [("d.pdf", [⟨"d.pdf:1-1:hA", "hA"⟩, ⟨"d.pdf:1-1:hB", "hB"⟩, ⟨"d.pdf:1-1:hB", "hB"⟩])]
          [] false).store =
        [⟨"d.pdf", "d.pdf:1-1:hA", "hA"⟩, ⟨"d.pdf", "d.pdf:1-1:hB", "hB"⟩] ∧
      index_repo
          [("d.pdf", [⟨"d.pdf:1-1:hA", "hA"⟩, ⟨"d.pdf:1-1:hB", "hB"⟩, ⟨"d.pdf:1-1:hB", "hB"⟩])]
          [⟨"d.pdf", "d.pdf:1-1:hA", "hA"⟩, ⟨"d.pdf", "d.pdf:1-1:hB", "hB"⟩] false =
        { store := [⟨"d.pdf", "d.pdf:1-1:hA", "hA"⟩, ⟨"d.pdf", "d.pdf:1-1:hB", "hB"⟩],
          created := 0, skipped := 3, batch := [] } ∧
      (3 : Nat) ≠
        ([⟨"d.pdf", "d.pdf:1-1:hA", "hA"⟩, (⟨"d.pdf", "d.pdf:1-1:hB", "hB"⟩ : Row)]).length := by
  refine ⟨by decide, by decide, by decide, by decide⟩

/-- C4 (amended): re-running the indexer on a folder whose computed chunks
match the stored chunk maps file-for-file leaves the store state identical
and reports `chunks_created = 0`, with `chunks_skipped_unchanged` equal to
the total number of computed chunks (duplicates counted separately); that
count equals `total_chunks` (the store's row count) whenever each file's
computed chunks have pairwise-distinct chunk ids — which the duplicate-page
counterexample shows can fail for document files. -/
theorem C4_amended_reindex_unchanged (files : List (String × List IChunk)) (store : List Row)
    (hmatch : ∀ f ∈ files,
      (∀ p ∈ getChunkHashes store f.1, p ∈ f.2.map (fun c => (c.chunk_id, c.content_hash))) ∧
      (∀ p ∈ f.2.map (fun c => (c.chunk_id, c.content_hash)), p ∈ getChunkHashes store f.1)) :
    index_repo files store false =
      { store := store, created := 0,
        skipped := (files.map (fun f => f.2.length)).sum, batch := [] } ∧
      ((store.map (fun r => r.chunk_id)).Nodup →
        (∀ r ∈ store, r.file_path ∈ files.map (fun f => f.1)) →
        (files.map (fun f => f.1)).Nodup →
        (∀ f ∈ files, (f.2.map (fun c => c.chunk_id)).Nodup) →
        store.length = (files.map (fun f => f.2.length)).sum) := by
  constructor
  · rw [index_repo]
    rw [fold_processFile_unchanged files store 0 0 hmatch]
    simp
  · intro hkeys hpaths hrels hnodups
    exact store_length_eq_total files store hkeys hpaths hrels
      (fun f hf => ⟨hnodups f hf, (hmatch f hf).1, (hmatch f hf).2⟩)

/-- Witness for the amended C4 at a one-file, one-chunk store. -/
theorem C4_amended_witness :
    (index_repo [("a.py", [⟨"a.py:1-1:h1", "h1"⟩])] [⟨"a.py", "a.py:1-1:h1", "h1"⟩] false =
        { store := [⟨"a.py", "a.py:1-1:h1", "h1"⟩], created := 0, skipped := 1, batch := [] }) ∧
      ([(⟨"a.py", "a.py:1-1:h1", "h1"⟩ : Row)]).length = 1 :=
  have h := C4_amended_reindex_unchanged [("a.py", [⟨"a.py:1-1:h1", "h1"⟩])]
    [⟨"a.py", "a.py:1-1:h1", "h1"⟩] (by decide)
  ⟨h.1, h.2 (by decide) (by decide) (by decide) (by decide)⟩

/-! ## C1: the incremental differ drops moved-but-unchanged chunks -/

/-- C1: evaluating `index_repo` at the spec's file-mutation scenario.  The
file previously had chunks `a.py:1-2:h1` and `a.py:4-5:h2`; after an edit
its chunks are `a.py:1-2:h9` (new hash) and `a.py:4-5:h2` (same content
hash).  The chunk-id sets differ, so all old rows are deleted — but the
unchanged-content chunk is then skipped by the hash test instead of being
re-inserted, and the final store has lost it: one row instead of two, with
`chunks_created = 1` and `chunks_skipped_unchanged = 1`. -/
theorem C1_differ_skips_deleted_chunk :
    index_repo [("a.py", [⟨"a.py:1-2:h9", "h9"⟩, ⟨"a.py:4-5:h2", "h2"⟩])]
        [⟨"a.py", "a.py:1-2:h1", "h1"⟩, ⟨"a.py", "a.py:4-5:h2", "h2"⟩] false =
      { store := [⟨"a.py", "a.py:1-2:h9", "h9"⟩], created := 1, skipped := 1, batch := [] } ∧
      "a.py:4-5:h2" ∉
        (index_repo [("a.py", [⟨"a.py:1-2:h9", "h9"⟩, ⟨"a.py:4-5:h2", "h2"⟩])]
          [⟨"a.py", "a.py:1-2:h1", "h1"⟩, ⟨"a.py", "a.py:4-5:h2", "h2"⟩] false).store.map
            (fun r => r.chunk_id) := by
  constructor
  · decide
  · decide

end CodeSight
